import Mathlib

/-!
Verification development for the legislation-processing pipeline.

This file gives a shallow embedding, in Lean, of the structure-repair and
entity-reconciliation functions of the repository (`pipeline/fix_structure.py`,
`pipeline/gpt_helpers.py`, `pipeline/hierarchy_builder.py`, `ner.py`) and
settles the specified claims about them.

Conventions used throughout the embedding:
* Python strings are Lean `String`s; character-level work goes through
  `String.data : List Char`.
* Python dict-shaped tree nodes become Lean structures.  Recursion over the
  nested `children` lists is expressed with an explicit fuel parameter
  (structural on the fuel) so that every definition is executable by the
  kernel; public wrappers instantiate the fuel with `sizeOf` of the input,
  which is always at least the recursion depth actually used.
* In-place mutation of lists of dicts is modelled either functionally (when
  the source mutation is purely local) or with an explicit store of
  node-ids (when the source relies on object identity and aliasing, as in
  `deduplicate_articles`).  Deviations forced by the memory model are noted
  at the definition they concern.
-/

/-! ## Basic Python string helpers -/

/-- Whitespace characters recognised by the embedding.  This is the core of
Python's whitespace class (space, tab, newline, carriage return, form feed,
vertical tab); the full Unicode class is larger, but no further whitespace
characters appear in the texts handled here. -/
def isPyWs (c : Char) : Bool :=
  c = ' ' || c = '\t' || c = '\n' || c = '\r' || c = Char.ofNat 11 || c = Char.ofNat 12

/-- Python `str.strip()` on a character list. -/
def stripList (l : List Char) : List Char :=
  ((l.dropWhile isPyWs).reverse.dropWhile isPyWs).reverse

/-- Python `str.strip()`. -/
def pyStrip (s : String) : String := ⟨stripList s.data⟩

/-- ASCII digit test (the regex class `\d` used by the source). -/
def isAsciiDigit (c : Char) : Bool := '0' ≤ c && c ≤ '9'

/-- Arabic-Indic digit test. -/
def isArabicDigit (c : Char) : Bool := '٠' ≤ c && c ≤ '٩'

/-- The digit translation table `str.maketrans("٠١٢٣٤٥٦٧٨٩", "0123456789")`
applied to one character. -/
def transDigit (c : Char) : Char :=
  if isArabicDigit c then Char.ofNat (c.toNat - '٠'.toNat + '0'.toNat) else c

/-- Python `text.translate(_DIGIT_TRANS)`. -/
def translateDigits (s : String) : String := ⟨s.data.map transDigit⟩

/-- Python `str.isdigit()` restricted to the ASCII and Arabic-Indic digit
ranges (the only digit scripts occurring in this domain; Python's `isdigit`
accepts further Unicode digit classes). -/
def pyIsDigit (l : List Char) : Bool :=
  !l.isEmpty && l.all (fun c => isAsciiDigit c || isArabicDigit c)

/-- Numeric value of an ASCII digit string (helper for `int(...)`). -/
def digitsToNat (l : List Char) : Nat :=
  l.foldl (fun a c => a * 10 + (c.toNat - '0'.toNat)) 0

/-- Python `int(s)` for strings: optional surrounding whitespace, optional
sign, then ASCII digits.  (Python also accepts digit-group underscores and
non-ASCII digits; those inputs do not occur here.) -/
def pyInt (s : String) : Option Int :=
  let l := stripList s.data
  match l with
  | '-' :: rest =>
      if !rest.isEmpty && rest.all isAsciiDigit then some (-(digitsToNat rest : Int)) else none
  | '+' :: rest =>
      if !rest.isEmpty && rest.all isAsciiDigit then some ((digitsToNat rest : Int)) else none
  | rest =>
      if !rest.isEmpty && rest.all isAsciiDigit then some ((digitsToNat rest : Int)) else none

/-- Python `str(int(l))` for a nonempty all-ASCII-digit run `l`: printing the
parsed integer normalises away leading zeros (and an all-zero run prints as
`"0"`). -/
def strIntOfDigits (l : List Char) : String :=
  let t := l.dropWhile (fun c => c = '0')
  if t.isEmpty then "0" else ⟨t⟩

/-! ## Node values

A value of `NumV` models the contents of the loosely-typed `number` field of
a structure node, which in the source may hold an `int`, a `str`, or be
absent (`None`). -/

inductive NumV where
  | nil
  | int (i : Int)
  | str (s : String)
deriving DecidableEq, Repr

/-- Python `str(x)` on a `number` field value. -/
def numStr : NumV → String
  | .nil => "None"
  | .int i => toString i
  | .str s => s

/-- A structure-tree node (the dict shape used throughout the pipeline
modules): `type`, `number`, `title`, `text`, `children`, and the
`_placeholder` marker. -/
structure SNode where
  typ : String
  number : NumV
  title : String
  text : String
  children : List SNode
  placeholder : Bool

instance : Inhabited SNode := ⟨⟨"", .nil, "", "", [], false⟩⟩

compile_inductive% SNode

/-- Membership of a node anywhere in a forest (the node itself is a member of
the sibling list, or it occurs inside some member's subtree). -/
inductive InForest : SNode → List SNode → Prop
  | here {n : SNode} {l : List SNode} : n ∈ l → InForest n l
  | child {n m : SNode} {l : List SNode} : m ∈ l → InForest n m.children → InForest n l

/-! ## `pipeline/fix_structure.py`: type and number canonicalisation -/

/-- The `ARTICLE_TYPE_MAP` dict of `fix_structure.py`, as an association
list in source order. -/
def ARTICLE_TYPE_MAP : List (String × String) :=
  [("الفصل", "فصل"), ("فصل", "فصل"),
   ("المادة", "مادة"), ("مادة", "مادة"),
   ("القسم", "قسم"), ("قسم", "قسم"),
   ("الباب", "باب"), ("باب", "باب"),
   ("الجزء", "جزء"), ("جزء", "جزء"),
   ("الفرع", "فرع"), ("فرع", "فرع")]

/-- The key set `ARTICLE_TYPES = set(ARTICLE_TYPE_MAP.keys())`. -/
def ARTICLE_TYPES : List String := ARTICLE_TYPE_MAP.map (fun p => p.1)

/-- Python `s.startswith("ال")`. -/
def startsWithAl (l : List Char) : Bool :=
  match l with
  | 'ا' :: 'ل' :: _ => true
  | _ => false

/-- The function `canonical_type` of `fix_structure.py`: strip, remove one
leading definite-article prefix, then map through the synonym table. -/
def canonical_type (t : String) : String :=
  let s := pyStrip t
  let s := if startsWithAl s.data then (⟨s.data.drop 2⟩ : String) else s
  ((ARTICLE_TYPE_MAP.lookup s).getD s)

/-- The `_ORDINAL_MAP` dict of `fix_structure.py`. -/
def ORDINAL_MAP : List (String × String) :=
  [("الأول", "1"), ("الأولى", "1"), ("الثاني", "2"), ("الثانية", "2"),
   ("الثالث", "3"), ("الثالثة", "3"), ("الرابع", "4"), ("الرابعة", "4"),
   ("الخامس", "5"), ("الخامسة", "5"), ("السادس", "6"), ("السادسة", "6"),
   ("السابع", "7"), ("السابعة", "7"), ("الثامن", "8"), ("الثامنة", "8"),
   ("التاسع", "9"), ("التاسعة", "9"), ("العاشر", "10"), ("العاشرة", "10"),
   ("الحادي عشر", "11"), ("الحادية عشرة", "11"),
   ("الثاني عشر", "12"), ("الثانية عشرة", "12"),
   ("الثالث عشر", "13"), ("الثالثة عشرة", "13"),
   ("الرابع عشر", "14"), ("الرابعة عشرة", "14"),
   ("تمهيدي", "0"), ("تمهيدية", "0")]

/-- The alternatives of the heading-word regex in `clean_number`, in source
order (regex alternation tries them left to right). -/
def HEAD_WORDS : List String :=
  ["الفصل", "فصل", "المادة", "مادة", "الباب", "باب", "القسم", "قسم", "الجزء", "جزء"]

/-- One application of the anchored substitution
`re.sub(r"^(?:heading words)\s*", "", num)`: remove the first alternative
that is a prefix, together with the following whitespace run. -/
def stripHeadWord (l : List Char) : List Char :=
  match HEAD_WORDS.find? (fun w => w.data.isPrefixOf l) with
  | some w => (l.drop w.data.length).dropWhile isPyWs
  | none => l

/-- First maximal ASCII-digit run of a string (`re.search(r"\d+", num)`). -/
def firstDigitRun (l : List Char) : Option (List Char) :=
  let rest := l.dropWhile (fun c => !isAsciiDigit c)
  if rest.isEmpty then none else some (rest.takeWhile isAsciiDigit)

/-- The function `clean_number` of `fix_structure.py`.  Notes on the
embedding: `str(int(run))` on an all-digit run is rendered by
`strIntOfDigits` (leading-zero normalisation); the final `int(num)` fallback
of the source can only raise (its argument contains no digit at that point),
so that branch leaves the processed string in place, exactly as the
`except` handler does. -/
def clean_number (node : SNode) : SNode :=
  if canonical_type node.typ ∈ ARTICLE_TYPES then
    match node.number with
    | .int i => { node with number := .str (toString i) }
    | .nil => node
    | .str num0 =>
      let num1 := pyStrip ⟨stripHeadWord num0.data⟩
      let num2 := translateDigits num1
      let num3 := if num2 = "تمهيدي" then "0" else num2
      let num4 := (ORDINAL_MAP.lookup num3).getD num3
      match firstDigitRun num4.data with
      | some run => { node with number := .str (strIntOfDigits run) }
      | none => { node with number := .str num4 }
  else node

/-! ## `clean_text` -/

/-- Latin-letter test for `re.sub(r"[A-Za-z]+", "", text)`. -/
def isLatinLetter (c : Char) : Bool :=
  ('A' ≤ c && c ≤ 'Z') || ('a' ≤ c && c ≤ 'z')

/-- Index (from the front) just after the last newline inside a whitespace
run, if any: this is where the backtracking of `\s*\n` ends. -/
def lastNewlinePos (l : List Char) : Option Nat :=
  let idxs := (List.range l.length).filter (fun i => l.getD i ' ' = '\n')
  idxs.getLast?

/-- Attempt to match `\n\s*\d+\s*\n` at the head of `l`; on success return
the number of characters consumed.  The final `\n` is found by backtracking
inside the second whitespace run. -/
def matchNlDigitsNl (l : List Char) : Option Nat :=
  match l with
  | '\n' :: rest =>
    let ws1 := rest.takeWhile isPyWs
    let afterWs1 := rest.drop ws1.length
    let digs := afterWs1.takeWhile isAsciiDigit
    if digs.isEmpty then none
    else
      let afterDigs := afterWs1.drop digs.length
      let ws2 := afterDigs.takeWhile isPyWs
      match lastNewlinePos ws2 with
      | some k => some (1 + ws1.length + digs.length + k + 1)
      | none => none
  | _ => none

/-- Scan for `re.sub(r"\n\s*\d+\s*\n", "\n", text)`: at each position either
replace a match by a single newline and continue after it, or emit the
character. -/
def subNlDigitsNl : Nat → List Char → List Char
  | 0, l => l
  | _ + 1, [] => []
  | fuel + 1, c :: rest =>
    match matchNlDigitsNl (c :: rest) with
    | some k => '\n' :: subNlDigitsNl fuel ((c :: rest).drop k)
    | none => c :: subNlDigitsNl fuel rest

/-- The header phrases removed by `clean_text` (and skipped by
`clean_ocr_lines`). -/
def HEADER_PHRASES : List String :=
  ["مديرية التشريع والدراسات", "مديرية التشريع والدرامات", "وزارة العدل", "المملكة المغربية"]

/-- Scan for the substitution removing the header phrases anywhere in the
text. -/
def subHeaderPhrases : Nat → List Char → List Char
  | 0, l => l
  | _ + 1, [] => []
  | fuel + 1, c :: rest =>
    match HEADER_PHRASES.find? (fun w => w.data.isPrefixOf (c :: rest)) with
    | some w => subHeaderPhrases fuel ((c :: rest).drop w.data.length)
    | none => c :: subHeaderPhrases fuel rest

/-- Does a full line match `^-?\s*\d+\s*-?$`?  (Within one line the
whitespace class cannot meet a newline, so the per-line reading used here
agrees with the multiline regex except for pathological matches spanning
lines, which do not arise in this material.) -/
def isPageNumberLine (l : List Char) : Bool :=
  let l := match l with
    | '-' :: rest => rest
    | other => other
  let l := l.dropWhile isPyWs
  let digs := l.takeWhile isAsciiDigit
  if digs.isEmpty then false
  else
    let l := (l.drop digs.length).dropWhile isPyWs
    match l with
    | [] => true
    | ['-'] => true
    | _ => false

/-- Split a character list at newlines (Python `splitlines`-style splitting
as performed by the multiline anchors). -/
def splitNl : List Char → List (List Char)
  | [] => [[]]
  | c :: rest =>
    if c = '\n' then [] :: splitNl rest
    else
      match splitNl rest with
      | [] => [[c]]
      | h :: t => (c :: h) :: t

/-- Rejoin lines with newlines. -/
def joinNl : List (List Char) → List Char
  | [] => []
  | [x] => x
  | x :: rest => x ++ '\n' :: joinNl rest

/-- The function `clean_text` of `fix_structure.py`: drop Latin letters,
collapse digit-only interior lines, remove the OCR header phrases, blank
standalone page-number lines, and strip. -/
def clean_text (text : String) : String :=
  let t1 : List Char := text.data.filter (fun c => !isLatinLetter c)
  let t2 := subNlDigitsNl (t1.length + 1) t1
  let t3 := subHeaderPhrases (t2.length + 1) t2
  let lines := splitNl t3
  let t4 := joinNl (lines.map (fun s => if isPageNumberLine s then [] else s))
  ⟨stripList t4⟩

/-! ## `finalize_structure` (fix_structure.py version)

The source threads a `seen` set of object ids to guard against aliased
(shared) nodes; tree values in the embedding cannot alias, so the guard is
dropped.  The recursion is fuel-structural; exhausted fuel yields `[]`
(with `sizeOf` fuel the exhaustion case is unreachable). -/

/-- The per-node field updates of `finalize_structure` before the text
step: drop the placeholder marker, canonicalise the type, stringify
non-`None` article numbers, and clean the number. -/
def finalizePre (node0 : SNode) : SNode :=
  let node := { node0 with placeholder := false, typ := canonical_type node0.typ }
  let node :=
    if node.typ ∈ ARTICLE_TYPES ∧ node.number ≠ .nil then
      { node with number := .str (numStr node.number) }
    else node
  clean_number node

/-- The per-node field updates of `finalize_structure`: after `finalizePre`
the text is cleaned for recognised kinds and cleared otherwise. -/
def finalizeNodeCore (node0 : SNode) : SNode :=
  let node := finalizePre node0
  if node.typ ∈ ARTICLE_TYPES then { node with text := clean_text node.text }
  else { node with text := "" }

def finalize_structure_go : Nat → List SNode → List SNode
  | 0, _ => []
  | _ + 1, [] => []
  | fuel + 1, node :: rest =>
    { finalizeNodeCore node with children := finalize_structure_go fuel node.children } ::
      finalize_structure_go fuel rest

/-- The function `finalize_structure` of `fix_structure.py`. -/
def finalize_structure (tree : List SNode) : List SNode :=
  finalize_structure_go (sizeOf tree) tree

/-! ## `fill_missing_articles` (fix_structure.py version) -/

/-- A placeholder article node as built by `fill_missing_articles`. -/
def placeholderArticle (n : Nat) : SNode :=
  { typ := "مادة", number := .str (toString n), title := "", text := "",
    children := [], placeholder := true }

/-- Placeholder run for the numbers `lo, lo+1, ..., hi-1`. -/
def placeholderRange (lo hi : Nat) : List SNode :=
  (List.range (hi - lo)).map (fun k => placeholderArticle (lo + k))

/-- The gap-filling pass over one sibling list: for each adjacent pair of
article nodes with parsed numbers `cur < next`, insert placeholders for the
numbers strictly between them.  (In the source the freshly inserted
placeholders are themselves revisited as loop pairs, but any such pair has
consecutive numbers, so the functional pair-walk gives the same list.) -/
def fillPairs : List SNode → List SNode
  | [] => []
  | [a] => [a]
  | a :: b :: rest =>
    if canonical_type a.typ = "مادة" ∧ canonical_type b.typ = "مادة" then
      match pyInt (numStr a.number), pyInt (numStr b.number) with
      | some ca, some nb =>
        if ca + 1 < nb then
          a :: (placeholderRange (ca + 1).toNat nb.toNat ++ fillPairs (b :: rest))
        else a :: fillPairs (b :: rest)
      | _, _ => a :: fillPairs (b :: rest)
    else a :: fillPairs (b :: rest)

/-- The leading fill of `fill_missing_articles`: when the first sibling is an
article with number above one, prepend placeholders `1 .. first-1`. -/
def fillLeading (nodes : List SNode) : List SNode :=
  match nodes with
  | [] => []
  | first :: _ =>
    if canonical_type first.typ = "مادة" then
      match pyInt (numStr first.number) with
      | some fn => if 1 < fn then placeholderRange 1 fn.toNat ++ nodes else nodes
      | none => nodes
    else nodes

/-- The function `fill_missing_articles` of `fix_structure.py` (fuel
recursion into children; the `seen` id-set of the source only guards aliased
nodes and is dropped as in `finalize_structure`). -/
def fill_missing_articles_go : Nat → List SNode → List SNode
  | 0, _ => []
  | fuel + 1, nodes =>
    let filled := fillPairs (fillLeading nodes)
    filled.map (fun n => { n with children := fill_missing_articles_go fuel n.children })

/-- The function `fill_missing_articles` of `fix_structure.py`. -/
def fill_missing_articles (nodes : List SNode) : List SNode :=
  fill_missing_articles_go (sizeOf nodes) nodes

/-! ## `pipeline/hierarchy_builder.py`: `normalize_numbers`

The pass runs inside `post_process_data` (`pipeline/post_process.py`) on the
same dict shape, so it is embedded over `SNode`. -/

/-- One node's number rewrite in `normalize_numbers`: the stripped string
form of the field is tested; a purely numeric value longer than two digits
whose first character is `'8'` or `'9'` loses its first digit (the
`tail.isdigit()` re-check of the source is kept although it cannot fail for
a digit string).  All other nodes keep their `number` field exactly as it
was, stripping included. -/
def normalizeNumberField (v : NumV) : NumV :=
  let num := stripList (numStr v).data
  if pyIsDigit num ∧ 2 < num.length ∧ (num.headD ' ' = '8' ∨ num.headD ' ' = '9') then
    let tail := num.drop 1
    if pyIsDigit tail then .str ⟨tail⟩ else v
  else v

/-- The function `normalize_numbers` of `hierarchy_builder.py` (recursion
into children, fuel-structural). -/
def normalize_numbers_go : Nat → List SNode → List SNode
  | 0, _ => []
  | _ + 1, [] => []
  | fuel + 1, node :: rest =>
    { node with
      number := normalizeNumberField node.number,
      children := normalize_numbers_go fuel node.children } ::
      normalize_numbers_go fuel rest

/-- The function `normalize_numbers` of `hierarchy_builder.py`. -/
def normalize_numbers (children : List SNode) : List SNode :=
  normalize_numbers_go (sizeOf children) children

/-! ## `deduplicate_articles` (fix_structure.py version)

The source keeps a `mapping` of article number to the first node object seen
with that number, and mutates those node objects through the alias while
walking and pruning the tree.  To model the aliasing faithfully the
embedding runs on an explicit store: nodes live under numeric ids, a
`children` field holds ids, and the sibling list under repair is referenced
either as the root list or as the children list of a stored node.
`parent_list.remove(node)` compares dicts by value, so removal erases the
first id in the referenced list whose deep value equals the current node's
deep value. -/

/-- Stored node data: the dict fields, with children as store ids. -/
structure NData where
  typ : String
  number : NumV
  title : String
  text : String
  children : List Nat
  placeholder : Bool
deriving DecidableEq, Repr

instance : Inhabited NData := ⟨⟨"", .nil, "", "", [], false⟩⟩

/-- A store of nodes, and the state carried by the traversal: the store, the
root sibling list, and the `mapping` dict of `deduplicate_articles`. -/
structure DState where
  store : List (Nat × NData)
  root : List Nat
  mapping : List (String × Nat)

/-- Read a node from the store. -/
def getN (st : List (Nat × NData)) (i : Nat) : NData :=
  (st.lookup i).getD default

/-- Overwrite a node in the store. -/
def setN (st : List (Nat × NData)) (i : Nat) (d : NData) : List (Nat × NData) :=
  st.map (fun p => if p.1 = i then (i, d) else p)

/-- The sibling list denoted by a reference: `none` is the root list,
`some j` is the children list of node `j`. -/
def readRef (s : DState) : Option Nat → List Nat
  | none => s.root
  | some j => (getN s.store j).children

/-- Replace the sibling list denoted by a reference. -/
def writeRef (s : DState) (r : Option Nat) (l : List Nat) : DState :=
  match r with
  | none => { s with root := l }
  | some j => { s with store := setN s.store j { getN s.store j with children := l } }

/-- Deep value equality of two stored subtrees (Python `==` on nested
dicts), with recursion fuel. -/
def deepEqN : Nat → List (Nat × NData) → Nat → Nat → Bool
  | 0, _, _, _ => false
  | fuel + 1, st, i, j =>
    let a := getN st i
    let b := getN st j
    a.typ = b.typ && a.number == b.number && a.title = b.title && a.text = b.text &&
      a.placeholder = b.placeholder && a.children.length = b.children.length &&
      (a.children.zip b.children).all (fun p => deepEqN fuel st p.1 p.2)

/-- Python `parent_list.remove(node)`: erase the first id whose deep value
equals that of `target` (no-op when nothing matches; the source would raise
`ValueError` there, a situation the traversal never produces). -/
def removeFirstEq (fuel : Nat) (st : List (Nat × NData)) (target : Nat) :
    List Nat → List Nat
  | [] => []
  | j :: rest =>
    if deepEqN fuel st j target then rest
    else j :: removeFirstEq fuel st target rest

/-- Merge a duplicate's text into the kept node (`longer text wins`). -/
def mergeTextInto (s : DState) (bestId : Nat) (dupText : String) : DState :=
  let best := getN s.store bestId
  if best.text.length < dupText.length then
    { s with store := setN s.store bestId { best with text := dupText } }
  else s

/-- The traversal `visit` of `deduplicate_articles` (fix_structure.py): fuel
is consumed at every processed node and every descent, so the definition is
structural and executable; the public wrapper passes ample fuel.  `pending`
is the snapshot `list(parent_list)` taken when the reference was entered. -/
def dedupVisit : Nat → List Nat → Option Nat → DState → DState
  | 0, _, _, s => s
  | _ + 1, [], _, s => s
  | fuel + 1, nid :: rest, ref, s =>
    let nd := getN s.store nid
    if canonical_type nd.typ = "مادة" then
      let num := numStr nd.number
      match s.mapping.lookup num with
      | some bestId =>
        let s1 := mergeTextInto s bestId nd.text
        let best1 := getN s1.store bestId
        let s2 :=
          if nd.children ≠ [] then
            { s1 with store := setN s1.store bestId { best1 with children := best1.children ++ nd.children } }
          else s1
        let s3 := writeRef s2 ref (removeFirstEq (fuel + 1) s2.store nid (readRef s2 ref))
        dedupVisit fuel rest ref s3
      | none =>
        let s1 := { s with mapping := s.mapping ++ [(num, nid)] }
        let nd1 := getN s1.store nid
        let s2 :=
          if nd1.children ≠ [] then dedupVisit fuel nd1.children (some nid) s1 else s1
        dedupVisit fuel rest ref s2
    else
      let s1 :=
        if nd.children ≠ [] then dedupVisit fuel nd.children (some nid) s else s
      dedupVisit fuel rest ref s1

/-- Build a store from a pure forest, assigning ids depth-first starting at
`next`; returns the ids of the roots and the next free id. -/
def toStoreGo : Nat → List SNode → Nat → List (Nat × NData) × List Nat × Nat
  | 0, _, next => ([], [], next)
  | _ + 1, [], next => ([], [], next)
  | fuel + 1, n :: rest, next =>
    let (stC, idsC, next1) := toStoreGo fuel n.children (next + 1)
    let (stR, idsR, next2) := toStoreGo fuel rest next1
    ((next, ⟨n.typ, n.number, n.title, n.text, idsC, n.placeholder⟩) :: stC ++ stR,
     next :: idsR, next2)

/-- Read a pure forest back out of a store. -/
def ofStoreGo : Nat → List (Nat × NData) → List Nat → List SNode
  | 0, _, _ => []
  | _ + 1, _, [] => []
  | fuel + 1, st, i :: rest =>
    let d := getN st i
    ⟨d.typ, d.number, d.title, d.text, ofStoreGo fuel st d.children, d.placeholder⟩ ::
      ofStoreGo fuel st rest

/-- The function `deduplicate_articles` of `fix_structure.py`, as a
forest-to-forest function: load the forest into a store, run the traversal
from the root list, and read the forest back. -/
def deduplicate_articles (nodes : List SNode) : List SNode :=
  let (st, ids, next) := toStoreGo (sizeOf nodes) nodes 1
  let s := dedupVisit (sizeOf nodes + next * next) ids none ⟨st, ids, []⟩
  ofStoreGo (sizeOf nodes + next) s.store s.root

/-! ## `fix_hierarchy` and `break_cycles`

Nodes here carry an identity label `nid` modelling the Python object id:
the source's cycle predicates (`id(node) in active`) and the claim's notion
of "a node being its own descendant" are only meaningful up to object
identity.  `fix_hierarchy` mutates nodes through the stack aliases; the
functional rendering keeps each node's accumulating child list inside the
stack entry and commits a node to its parent (or to the root list) when it
is popped, which attaches the same children in the same order. -/

structure HNode where
  nid : Nat
  typ : String
  number : String
  title : String
  text : String
  children : List HNode

instance : Inhabited HNode := ⟨⟨0, "", "", "", "", []⟩⟩

compile_inductive% HNode

/-- Forest membership for `HNode` (at the roots or inside some subtree). -/
inductive InForestH : HNode → List HNode → Prop
  | here {n : HNode} {l : List HNode} : n ∈ l → InForestH n l
  | child {n m : HNode} {l : List HNode} : m ∈ l → InForestH n m.children → InForestH n l

/-- The module-level `RANK_MAP` of `fix_structure.py`. -/
def RANK_MAP : List (String × Nat) :=
  [("قسم", 0), ("جزء", 0), ("باب", 1), ("فصل", 2), ("فرع", 3), ("مادة", 4)]

/-- Largest rank value of a rank map (`max(rank_map.values())`; the source
would raise on an empty dict, which `compute_rank_map` never returns). -/
def maxRankVal (rm : List (String × Nat)) : Nat :=
  rm.foldl (fun a p => max a p.2) 0

/-- Rank lookup `rank_map.get(typ, max(rank_map.values()) + 1)`. -/
def rankOf (rm : List (String × Nat)) (t : String) : Nat :=
  (rm.lookup t).getD (maxRankVal rm + 1)

/-- The `walk` of `compute_rank_map` (fix_structure.py): first-seen preorder
list of nonempty canonical types. -/
def collectTypesGo : Nat → List HNode → List String → List String
  | 0, _, acc => acc
  | _ + 1, [], acc => acc
  | fuel + 1, n :: rest, acc =>
    let t := canonical_type n.typ
    let acc1 := if t ≠ "" ∧ t ∉ acc then acc ++ [t] else acc
    let acc2 := collectTypesGo fuel n.children acc1
    collectTypesGo fuel rest acc2

/-- The function `compute_rank_map` of `fix_structure.py`: enumerate the
first-seen type order, falling back to `RANK_MAP` when no types are seen. -/
def compute_rank_map (nodes : List HNode) : List (String × Nat) :=
  let order := collectTypesGo (sizeOf nodes) nodes []
  if order.isEmpty then RANK_MAP else order.enum.map (fun p => (p.2, p.1))

/-- Pop the stack while the incoming rank is at most the top's rank
(`while stack and rank <= stack[-1][1]: stack.pop()`), committing each
popped node to the next entry's child accumulator or to the root list; the
fuel is one more than the stack length, which each recursive call
maintains. -/
def popWhileGo (rank : Nat) : Nat → List (HNode × Nat) → List HNode →
    List (HNode × Nat) × List HNode
  | 0, stack, roots => (stack, roots)
  | _ + 1, [], roots => ([], roots)
  | fuel + 1, (p, r) :: rest, roots =>
    if rank ≤ r then
      match rest with
      | [] => popWhileGo rank fuel [] (roots ++ [p])
      | (q, rq) :: rest2 =>
        popWhileGo rank fuel (({ q with children := q.children ++ [p] }, rq) :: rest2) roots
    else ((p, r) :: rest, roots)

/-- The pop phase with exactly enough fuel. -/
def popWhile (rank : Nat) (stack : List (HNode × Nat)) (roots : List HNode) :
    List (HNode × Nat) × List HNode :=
  popWhileGo rank (stack.length + 1) stack roots

/-- The main loop of `fix_hierarchy` over one sibling list; at the end of
the input every remaining stack entry is committed (rank 0 pops all), which
reproduces the attachments the source performed eagerly through aliases. -/
def fhLoop (rank : String → Nat) : List HNode → List (HNode × Nat) → List HNode → List HNode
  | [], stack, roots => (popWhile 0 stack roots).2
  | x :: xs, stack, roots =>
    let rx := rank (canonical_type x.typ)
    let (s1, r1) := popWhile rx stack roots
    fhLoop rank xs ((x, rx) :: s1) r1

/-- The function `fix_hierarchy` of `fix_structure.py` (fuel-structural
recursion into the children of the re-parented roots). -/
def fix_hierarchy_go : Nat → (String → Nat) → List HNode → List HNode
  | 0, _, nodes => nodes
  | fuel + 1, rank, nodes =>
    let roots := fhLoop rank nodes [] []
    roots.map (fun n => { n with children := fix_hierarchy_go fuel rank n.children })

/-- The function `fix_hierarchy` of `fix_structure.py` with its default
`rank_map=None` argument (the rank map is computed from the input). -/
def fix_hierarchy (nodes : List HNode) : List HNode :=
  fix_hierarchy_go (sizeOf nodes) (rankOf (compute_rank_map nodes)) nodes

/-- Fresh relabelling of a forest (Python `copy.deepcopy` allocates fresh
object ids for every node of the copied subtree); returns the next free
label. -/
def relabelList : Nat → List HNode → Nat → List HNode × Nat
  | 0, l, ctr => (l, ctr)
  | _ + 1, [], ctr => ([], ctr)
  | fuel + 1, n :: rest, ctr =>
    let (cs, ctr1) := relabelList fuel n.children (ctr + 1)
    let (rs, ctr2) := relabelList fuel rest ctr1
    ({ n with nid := ctr, children := cs } :: rs, ctr2)

/-- Deep copy of a single node with fresh ids. -/
def relabelNode (fuel : Nat) (n : HNode) (ctr : Nat) : HNode × Nat :=
  match relabelList fuel [n] ctr with
  | ([m], c) => (m, c)
  | _ => (n, ctr)

/-- The function `break_cycles` of `gpt_helpers.py`.  `active` is the set of
ids on the current ancestor path, `seen` the set of ids already visited,
`ctr` the next fresh object id for deep copies.  A node on the active path
is dropped from the list; a node seen elsewhere is deep-copied before
reattachment.  (The source iterates over a snapshot while popping from the
live list, so after a removal its loop indices drift; that drift is not
reproduced here — it only manifests on inputs that already alias a node on
its own ancestor path, which the repaired trees never contain.) -/
def break_cycles_go : Nat → List HNode → List Nat → List Nat → Nat →
    List HNode × List Nat × Nat
  | 0, l, _, seen, ctr => (l, seen, ctr)
  | _ + 1, [], _, seen, ctr => ([], seen, ctr)
  | fuel + 1, n :: rest, active, seen, ctr =>
    if n.nid ∈ active then
      break_cycles_go fuel rest active seen ctr
    else
      let nc := if n.nid ∈ seen then relabelNode (fuel + 1) n ctr else (n, ctr)
      let n1 := nc.1
      let ctr1 := nc.2
      let seen1 := if n1.nid ∈ seen then seen else seen ++ [n1.nid]
      let csr := break_cycles_go fuel n1.children (active ++ [n1.nid]) seen1 ctr1
      let rsr := break_cycles_go fuel rest active csr.2.1 csr.2.2
      ({ n1 with children := csr.1 } :: rsr.1, rsr.2)

/-- Largest node id occurring in a forest. -/
def maxIdGo : Nat → List HNode → Nat
  | 0, _ => 0
  | _ + 1, [] => 0
  | fuel + 1, n :: rest => max n.nid (max (maxIdGo fuel n.children) (maxIdGo fuel rest))

/-- The function `break_cycles` of `gpt_helpers.py` as called by the
pipeline (`break_cycles(tree)`), with deep copies receiving fresh ids. -/
def break_cycles (nodes : List HNode) : List HNode :=
  (break_cycles_go (sizeOf nodes) nodes [] [] (maxIdGo (sizeOf nodes) nodes + 1)).1

/-- The tree-repair pipeline of the claim: `fix_hierarchy` followed by
`break_cycles`. -/
def tree_repair_pipeline (nodes : List HNode) : List HNode :=
  break_cycles (fix_hierarchy nodes)

/-- The flattened list of node ids of a forest, in preorder.  In the
source, node ids model Python object identity, so this list enumerates the
node objects reachable through children links. -/
def flatIds : List HNode → List Nat
  | [] => []
  | n :: rest => n.nid :: (flatIds n.children ++ flatIds rest)
termination_by l => sizeOf l
decreasing_by
  all_goals (cases n; simp; try omega)

/-- The ids of one node and its subtree. -/
def nodeFlat (n : HNode) : List Nat := n.nid :: flatIds n.children

/-- The ids held inside a `fix_hierarchy` stack (each entry a node with its
accumulated children). -/
def stackFlat (s : List (HNode × Nat)) : List Nat :=
  s.foldr (fun p acc => nodeFlat p.1 ++ acc) []

/-! ## `ner.py`: `fix_entity_offsets` -/

/-- An entity as consumed by `fix_entity_offsets`: the fields it reads.  The
source coerces missing or non-integer offsets to `-1` via `try`/`except`;
the embedding types the offsets as integers directly. -/
structure OEnt where
  id : String
  etyp : String
  text : String
  startc : Int
  endc : Int
deriving DecidableEq, Repr

/-- The local predicate `_overlaps` of `fix_entity_offsets`. -/
def overlapsR (r1 r2 : Int × Int) : Bool :=
  !(r1.2 ≤ r2.1 || r1.1 ≥ r2.2)

/-- Python slice `l[s:e]` for natural indices. -/
def pySlice (l : List Char) (s e : Nat) : List Char :=
  (l.drop s).take (e - s)

/-- All occurrence positions of `needle` in `hay`, ascending — the repeated
`find(needle, idx + 1)` loop of the source. -/
def allOccs (needle hay : List Char) : List Nat :=
  (List.range (hay.length + 1)).filter (fun i => needle.isPrefixOf (hay.drop i))

/-- Stable insertion keeping existing elements with keys at most the new
key in front of it. -/
def insSorted (key : Nat × Nat → Nat) (x : Nat × Nat) :
    List (Nat × Nat) → List (Nat × Nat)
  | [] => [x]
  | y :: rest => if key y ≤ key x then y :: insSorted key x rest else x :: y :: rest

/-- Stable sort by key (Python `list.sort(key=...)` is stable; any stable
sort computes the same list). -/
def stableSortBy (key : Nat × Nat → Nat) (l : List (Nat × Nat)) : List (Nat × Nat) :=
  l.foldl (fun acc x => insSorted key x acc) []

/-- The local helper `_assign_from` of `fix_entity_offsets`: sort candidate
ranges by distance from the stated start and claim the first one that
overlaps no used range; `none` when every candidate is blocked. -/
def assignFrom (used : List (Int × Int)) (ent : OEnt) (occs : List (Nat × Nat)) :
    Option (OEnt × List (Int × Int)) :=
  let sorted := stableSortBy (fun r => ((r.1 : Int) - ent.startc).natAbs) occs
  match sorted.find? (fun r => !(used.any (fun u => overlapsR ((r.1 : Int), (r.2 : Int)) u))) with
  | some r => some ({ ent with startc := (r.1 : Int), endc := (r.2 : Int) }, used ++ [((r.1 : Int), (r.2 : Int))])
  | none => none

/-- Occurrence ranges (start, end) for a needle at the given positions. -/
def occRanges (positions : List Nat) (tlen : Nat) : List (Nat × Nat) :=
  positions.map (fun s => (s, s + tlen))

/-- One entity step of `fix_entity_offsets`: returns the (possibly
re-offset) entity and the updated claimed-range list. -/
def fixOffsetsStep (text : List Char) (used : List (Int × Int)) (ent : OEnt) :
    OEnt × List (Int × Int) :=
  if ent.text = "" then (ent, used)
  else if ent.startc = -1 ∨ ent.endc = -1 then (ent, used)
  else if 0 ≤ ent.startc ∧ ent.startc < ent.endc ∧ ent.endc ≤ (text.length : Int) ∧
      pySlice text ent.startc.toNat ent.endc.toNat = ent.text.data ∧
      !(used.any (fun u => overlapsR (ent.startc, ent.endc) u)) then
    (ent, used ++ [(ent.startc, ent.endc)])
  else
    let tlen := ent.text.data.length
    let ss : Nat := (max 0 (ent.startc - 50)).toNat
    let se : Nat := (min (text.length : Int) (ent.startc + 50 + (tlen : Int))).toNat
    let snippet := pySlice text ss se
    let occs := occRanges ((allOccs ent.text.data snippet).map (fun i => ss + i)) tlen
    match assignFrom used ent occs with
    | some r => r
    | none =>
      let occs2 := occRanges (allOccs ent.text.data text) tlen
      if occs2.isEmpty then (ent, used)
      else
        match assignFrom used ent occs2 with
        | some r => r
        | none => (ent, used)

/-- The function `fix_entity_offsets` of `ner.py`, over the entity list of
the result dict. -/
def fix_entity_offsets (text : String) (entities : List OEnt) : List OEnt :=
  (entities.foldl
    (fun acc ent =>
      let r := fixOffsetsStep text.data acc.2 ent
      (acc.1 ++ [r.1], r.2))
    (([], []) : List OEnt × List (Int × Int))).1

/-! ## `ner.py`: `remove_articles_inside_dates` and `assign_numeric_ids` -/

/-- An entity as consumed by the id-stabilisation steps. -/
structure REnt where
  id : String
  etyp : String
  startc : Int
  endc : Int
deriving DecidableEq, Repr

/-- A relation with its original string endpoints. -/
structure RRel where
  relId : String
  rtyp : String
  source : String
  target : String
deriving DecidableEq, Repr

/-- A NER result as consumed by the final post-processing steps. -/
structure RResult where
  entities : List REnt
  relations : List RRel
deriving DecidableEq, Repr

/-- The function `remove_articles_inside_dates` of `ner.py`: drop every
`ARTICLE` entity whose span lies inside some `DATE` span.  Relations are not
touched. -/
def remove_articles_inside_dates (res : RResult) : RResult :=
  let dateRanges := (res.entities.filter (fun e => e.etyp = "DATE")).map (fun e => (e.startc, e.endc))
  if dateRanges.isEmpty then res
  else
    { res with
      entities := res.entities.filter (fun e =>
        !(e.etyp = "ARTICLE" && dateRanges.any (fun r => r.1 ≤ e.startc && e.endc ≤ r.2))) }

/-- A relation endpoint after id stabilisation: either a fresh numeric id or
the original string id left in place by `id_map.get(src, src)`. -/
inductive NumOrStr where
  | num (n : Nat)
  | str (s : String)
deriving DecidableEq, Repr

/-- An entity after id stabilisation. -/
structure NEnt where
  id : Nat
  etyp : String
  startc : Int
  endc : Int
deriving DecidableEq, Repr

/-- A relation after id stabilisation. -/
structure NRel where
  relId : Nat
  rtyp : String
  source : NumOrStr
  target : NumOrStr
deriving DecidableEq, Repr

/-- The stabilised result. -/
structure NResult where
  entities : List NEnt
  relations : List NRel
deriving DecidableEq, Repr

/-- The dict `id_map` built by `assign_numeric_ids` (last binding wins, as
for a Python dict assigned in a loop). -/
def idMapOf (ents : List REnt) : List (String × Nat) :=
  ents.enum.map (fun p => (p.2.id, p.1 + 1))

/-- Python `id_map.get(k, k)` restricted to the found case. -/
def dictGetLast (m : List (String × Nat)) (k : String) : Option Nat :=
  m.reverse.lookup k

/-- The function `assign_numeric_ids` of `ner.py`: entities are renumbered
`1..N` in order; each relation keeps its position, its endpoints rewritten
through the id map when the old id is known and left as the stale string
otherwise. -/
def assign_numeric_ids (res : RResult) : NResult :=
  let m := idMapOf res.entities
  { entities := res.entities.enum.map (fun p => ⟨p.1 + 1, p.2.etyp, p.2.startc, p.2.endc⟩),
    relations := res.relations.enum.map (fun p =>
      ⟨p.1 + 1, p.2.rtyp,
        match dictGetLast m p.2.source with
        | some n => .num n
        | none => .str p.2.source,
        match dictGetLast m p.2.target with
        | some n => .num n
        | none => .str p.2.target⟩) }

/-- The tail of `postprocess_result` relevant to identifier stabilisation:
`remove_articles_inside_dates` followed by `assign_numeric_ids`. -/
def stabilize_ids (res : RResult) : NResult :=
  assign_numeric_ids (remove_articles_inside_dates res)

/-! ## `ner.py`: `_canonical_number` and the global-identifier step -/

/-- Separator character class `[./]` of the `_canonical_number` regex. -/
def isSepChar (c : Char) : Bool := c = '.' || c = '/'

/-- Length of the match of `\d+(?:[./]+[^\d]*\d+)*` starting at a position
whose head is a digit: the leading digit run, then as many
separator/non-digit/digit groups as complete (a trailing partial group is
not consumed, as the regex would fail that group and stop). -/
def matchSpanLen : Nat → List Char → Nat
  | 0, _ => 0
  | fuel + 1, l =>
    let d1 := l.takeWhile isAsciiDigit
    let rest := l.drop d1.length
    let seps := rest.takeWhile isSepChar
    if seps.isEmpty then d1.length
    else
      let rest2 := rest.drop seps.length
      let nond := rest2.takeWhile (fun c => !isAsciiDigit c)
      let rest3 := rest2.drop nond.length
      if rest3.isEmpty then d1.length
      else d1.length + seps.length + nond.length + matchSpanLen fuel rest3

/-- All maximal ASCII-digit runs of a string
(`re.findall(r"\d+", m.group(0))`). -/
def digitRunsGo : Nat → List Char → List (List Char)
  | 0, _ => []
  | fuel + 1, l =>
    let rest := l.dropWhile (fun c => !isAsciiDigit c)
    if rest.isEmpty then []
    else
      let run := rest.takeWhile isAsciiDigit
      run :: digitRunsGo fuel (rest.drop run.length)

/-- All maximal separator runs (`re.findall(r"[./]+", m.group(0))`). -/
def sepRunsGo : Nat → List Char → List (List Char)
  | 0, _ => []
  | fuel + 1, l =>
    let rest := l.dropWhile (fun c => !isSepChar c)
    if rest.isEmpty then []
    else
      let run := rest.takeWhile isSepChar
      run :: sepRunsGo fuel (rest.drop run.length)

/-- The function `_canonical_number` of `ner.py`: translate digit scripts,
take the first match of `\d+(?:[./]+[^\d]*\d+)*`, and recompose the digit
runs of the match joined by the first character of each separator run
(`zip` truncating to the shorter list). -/
def canonical_number (text : String) : Option String :=
  let s := (translateDigits text).data
  let pre := s.takeWhile (fun c => !isAsciiDigit c)
  if s.length ≤ pre.length then none
  else
    let tail := s.drop pre.length
    let m := tail.take (matchSpanLen (tail.length + 1) tail)
    let digits := digitRunsGo (m.length + 1) m
    let seps := sepRunsGo (m.length + 1) m
    match digits with
    | [] => none
    | d0 :: drest =>
      some ⟨d0 ++ (seps.zip drest).foldl (fun acc p => acc ++ (p.1.headD '.' :: p.2)) []⟩

/-- An entity as consumed by the global-identifier step. -/
structure GEnt where
  id : String
  etyp : String
  text : String
  normalized : Option String
  globalId : Option String
deriving DecidableEq, Repr

/-- A relation as consumed by the global-identifier step. -/
structure GRel where
  rtyp : String
  source : String
  target : String
deriving DecidableEq, Repr

/-- A NER result as consumed by the global-identifier step. -/
structure GResult where
  entities : List GEnt
  relations : List GRel
deriving DecidableEq, Repr

/-- Modelled from the spec: the governing-instrument entity types of the
global-identifier assignment step (law / decree / dahir).  The step itself
is not present in `src/ner.py`; only its tests (`tests/test_global_ids.py`)
and its database consumers reference it, so it is modelled from the
specification text here. -/
def INSTRUMENT_TYPES : List String := ["LAW", "DECRET", "DAHIR"]

/-- Modelled from the spec: an entity's canonical number, derived with the
repository's `_canonical_number` from its normalized value when present and
nonempty, else from its text (the `e.get("normalized") or e.get("text")`
idiom used throughout `ner.py`). -/
def entCanonNum (e : GEnt) : Option String :=
  canonical_number
    (match e.normalized with
     | some s => if s ≠ "" then s else e.text
     | none => e.text)

/-- Modelled from the spec: a governing instrument's own global id,
`"<KIND>_<NUM>"`. -/
def instrumentGlobal (e : GEnt) : Option String :=
  (entCanonNum e).map (fun n => e.etyp ++ "_" ++ n)

/-- Modelled from the spec: the instrument entity a relation links the given
article to, if any (either endpoint may hold the article; the other must be
an instrument entity with a canonical number). -/
def relInstrument (ents : List GEnt) (artId : String) (r : GRel) : Option GEnt :=
  if r.source = artId then
    ents.find? (fun g => g.id = r.target ∧ g.etyp ∈ INSTRUMENT_TYPES ∧ (entCanonNum g).isSome)
  else if r.target = artId then
    ents.find? (fun g => g.id = r.source ∧ g.etyp ∈ INSTRUMENT_TYPES ∧ (entCanonNum g).isSome)
  else none

/-- Modelled from the spec: the first governing instrument found by
scanning the relation list. -/
def governingOf (res : GResult) (e : GEnt) : Option GEnt :=
  res.relations.findSome? (relInstrument res.entities e.id)

/-- Modelled from the spec: the global-identifier assignment step of entity
post-processing.  Instrument entities receive `"<KIND>_<NUM>"`; an article
with a governing instrument receives `"<KIND>_<INSTRUMENT_NUM>_ART_<NUM>"`
(the instrument's global id followed by `_ART_` and the article's canonical
number, as in the spec's example `LAW_29.11_ART_4`); an article without one
receives `"ART_<NUM>"`.  Entities without a canonical number are left
untouched. -/
def assign_global_ids (res : GResult) : GResult :=
  { res with
    entities := res.entities.map (fun e =>
      if e.etyp ∈ INSTRUMENT_TYPES then
        match instrumentGlobal e with
        | some g => { e with globalId := some g }
        | none => e
      else if e.etyp = "ARTICLE" then
        match entCanonNum e with
        | none => e
        | some n =>
          match governingOf res e with
          | some g =>
            match instrumentGlobal g with
            | some gg => { e with globalId := some (gg ++ "_ART_" ++ n) }
            | none => { e with globalId := some ("ART_" ++ n) }
          | none => { e with globalId := some ("ART_" ++ n) }
      else e) }

/-! ## `gpt_helpers.py`: `smart_token_split` and `split_for_pass2`

The external tokenizer (`tiktoken`) is opaque third-party code; the
embedding works at character granularity, taking one token per character so
that `encode` and `decode` are identities.  `compute_pass2_chunk_limit`
depends on the token volume of prompt files that are not part of the
sources, so the chunk limit (after the source's
`chunk_limit = max(100, chunk_limit - overlap)` clamp, giving a value of at
least 100) and the overlap (the constant 256) are parameters of the
embedding. -/

/-- The sentence-terminal punctuation fallbacks of `smart_token_split`, in
source order. -/
def PUNCTS : List Char := ['۔', '؟', '.', '!', ';']

/-- Python `s.rfind(c)`: the last index of `c`, or `-1`. -/
def rfindChar (c : Char) (l : List Char) : Int :=
  match ((List.range l.length).filter (fun i => l.getD i ' ' = c)).getLast? with
  | some i => (i : Int)
  | none => -1

/-- The cut-point search of `smart_token_split`: the last newline, else the
rightmost of the punctuation marks. -/
def smartCut (slice : List Char) : Int :=
  let cut := rfindChar '\n' slice
  if cut < 0 then
    PUNCTS.foldl (fun cut p =>
      let pos := rfindChar p slice
      if cut < pos then pos else cut) cut
  else cut

/-- The loop of `smart_token_split` (fuel-structural; each iteration
consumes at least one token whenever `1 ≤ limit`, so the wrapper's fuel
always suffices; a stalled iteration, reachable only at `limit = 0` where
the source loops forever, returns no further chunks). -/
def sts_go (tokens : List Char) (limit : Nat) : Nat → Nat → List (List Char)
  | 0, _ => []
  | fuel + 1, idx =>
    if idx < tokens.length then
      let e := min (idx + limit) tokens.length
      let slice := (tokens.drop idx).take (e - idx)
      let cut := smartCut slice
      let actualEnd := if 0 ≤ cut ∧ cut < (slice.length : Int) - 1 then idx + (cut.toNat + 1) else e
      let chunk := (tokens.drop idx).take (actualEnd - idx)
      if actualEnd ≤ idx then []
      else chunk :: sts_go tokens limit fuel actualEnd
    else []

/-- The function `smart_token_split` of `gpt_helpers.py` (character-token
model). -/
def smart_token_split (tokens : List Char) (limit : Nat) : List (List Char) :=
  sts_go tokens limit (tokens.length + 1) 0

/-- The loop of `split_for_pass2`: carry the overlap tail, split the
combined window, trim the carried tail from the first sub-chunk, stop on an
empty remainder. -/
def sfp2_go (tokens : List Char) (chunkLimit overlap : Nat) :
    Nat → Nat → List Char → List (List Char) → List (List Char)
  | 0, _, _, acc => acc
  | fuel + 1, i, prevTail, acc =>
    if i < tokens.length then
      let window := prevTail ++ (tokens.drop i).take chunkLimit
      if window.isEmpty then acc
      else
        let subchunks := smart_token_split window chunkLimit
        let chunkTokens :=
          match subchunks with
          | this :: _ => if prevTail.isEmpty then this else this.drop prevTail.length
          | [] => if prevTail.isEmpty then window else window.drop prevTail.length
        if chunkTokens.isEmpty then acc
        else
          let newTail := if overlap = 0 then [] else chunkTokens.drop (chunkTokens.length - overlap)
          sfp2_go tokens chunkLimit overlap fuel (i + chunkTokens.length) newTail (acc ++ [chunkTokens])
    else acc

/-- The function `split_for_pass2` of `gpt_helpers.py` (character-token
model, parameterised by the computed chunk limit and the overlap). -/
def split_for_pass2 (tokens : List Char) (chunkLimit overlap : Nat) : List (List Char) :=
  sfp2_go tokens chunkLimit overlap (tokens.length + 1) 0 [] []

/-! ## `hierarchy_builder.py`: `remove_duplicate_articles`

The function records, for every digit-numbered article occurrence, the list
object and index where it sits, then mutates the kept node and blanks the
discarded slots positionally (`parent[idx] = None`) before a sweep.  The
embedding mirrors this with a store whose child lists hold optional ids:
`none` is a blanked slot.  An occurrence is `(parent reference, index,
node id)`; the traversal order of an occurrence is its position in the
collected list, as with the source's `order` counter. -/

/-- The `TYPE_MAP` of `hierarchy_builder.py`. -/
def TYPE_MAP_HB : List (String × String) :=
  [("المادة", "مادة"), ("القسم", "قسم"), ("الباب", "باب"),
   ("الفصل", "فصل"), ("الجزء", "جزء"), ("الفرع", "فرع")]

/-- The function `canonical_type` of `hierarchy_builder.py`: the
definite-article prefix is stripped only when the remainder is one of the
canonical values. -/
def canonical_type_hb (t : String) : String :=
  let s := pyStrip t
  let s :=
    if startsWithAl s.data ∧ (⟨s.data.drop 2⟩ : String) ∈ TYPE_MAP_HB.map (fun p => p.2) then
      (⟨s.data.drop 2⟩ : String)
    else s
  ((TYPE_MAP_HB.lookup s).getD s)

/-- Stored node data for `remove_duplicate_articles`: child slots are
optional ids (`none` is a tombstoned slot). -/
structure MData where
  typ : String
  number : NumV
  title : String
  text : String
  children : List (Option Nat)
  placeholder : Bool
deriving DecidableEq, Repr

instance : Inhabited MData := ⟨⟨"", .nil, "", "", [], false⟩⟩

/-- Store read. -/
def getM (st : List (Nat × MData)) (i : Nat) : MData :=
  (st.lookup i).getD default

/-- Store write. -/
def setM (st : List (Nat × MData)) (i : Nat) (d : MData) : List (Nat × MData) :=
  st.map (fun p => if p.1 = i then (i, d) else p)

/-- Load a pure forest into an `MData` store (ids depth-first from
`next`). -/
def toStoreMGo : Nat → List SNode → Nat → List (Nat × MData) × List Nat × Nat
  | 0, _, next => ([], [], next)
  | _ + 1, [], next => ([], [], next)
  | fuel + 1, n :: rest, next =>
    let (stC, idsC, next1) := toStoreMGo fuel n.children (next + 1)
    let (stR, idsR, next2) := toStoreMGo fuel rest next1
    ((next, ⟨n.typ, n.number, n.title, n.text, idsC.map some, n.placeholder⟩) :: stC ++ stR,
     next :: idsR, next2)

/-- An occurrence: the containing list (root or a node's children), the
index in it, and the node id. -/
structure MOcc where
  ref : Option Nat
  idx : Nat
  nid : Nat
deriving DecidableEq, Repr

instance : Inhabited MOcc := ⟨⟨none, 0, 0⟩⟩

/-- Stripped string form of a stored node's number. -/
def mNumOf (st : List (Nat × MData)) (nid : Nat) : String :=
  pyStrip (numStr (getM st nid).number)

/-- The `walk` of `remove_duplicate_articles`: collect digit-numbered
article occurrences in traversal order; a non-digit-numbered article is
skipped together with its subtree (the source's `continue`).  Blanked slots
cannot occur at walk time. -/
def walkMGo : Nat → List (Nat × MData) → List (Option Nat) → Option Nat → Nat → List MOcc
  | 0, _, _, _, _ => []
  | _ + 1, _, [], _, _ => []
  | fuel + 1, st, slot :: rest, ref, idx =>
    match slot with
    | none => walkMGo fuel st rest ref (idx + 1)
    | some nid =>
      let nd := getM st nid
      if canonical_type_hb nd.typ = "مادة" ∧ ¬(pyIsDigit (mNumOf st nid).data) then
        walkMGo fuel st rest ref (idx + 1)
      else
        (if canonical_type_hb nd.typ = "مادة" then [⟨ref, idx, nid⟩] else []) ++
        (if nd.children ≠ [] then walkMGo fuel st nd.children (some nid) 0 else []) ++
        walkMGo fuel st rest ref (idx + 1)

/-- First-seen order of the distinct numbers among the occurrences (the
insertion order of the `occurrences` dict). -/
def numInsertionOrder (st : List (Nat × MData)) (occs : List MOcc) : List String :=
  occs.foldl (fun acc o =>
    let n := mNumOf st o.nid
    if n ∈ acc then acc else acc ++ [n]) []

/-- Stable insertion by a natural key, keeping earlier equals in front. -/
def insKeyed {α : Type} (key : α → Nat) (x : α) : List α → List α
  | [] => [x]
  | y :: rest => if key y ≤ key x then y :: insKeyed key x rest else x :: y :: rest

/-- Stable sort by a natural key (Python sorts are stable). -/
def sortKeyed {α : Type} (key : α → Nat) (l : List α) : List α :=
  l.foldl (fun acc x => insKeyed key x acc) []

/-- The selection loop of `remove_duplicate_articles`: numbers in ascending
numeric order; for each, the earliest occurrence strictly after the
previously selected order, else the last occurrence. -/
def chooseGo : Int → List (String × List (Nat × MOcc)) → List (String × (Nat × MOcc))
  | _, [] => []
  | last, (num, occs) :: rest =>
    let sorted := sortKeyed (fun o => o.1) occs
    let sel :=
      match sorted.find? (fun o => last < (o.1 : Int)) with
      | some o => o
      | none => sorted.getLastD default
    (num, sel) :: chooseGo ((sel.1 : Int)) rest

/-- Blank one slot of the referenced list (`parent[idx] = None`). -/
def blankSlot (st : List (Nat × MData)) (root : List (Option Nat)) (ref : Option Nat)
    (idx : Nat) : List (Nat × MData) × List (Option Nat) :=
  match ref with
  | none => (st, root.set idx none)
  | some j =>
    let d := getM st j
    (setM st j { d with children := d.children.set idx none }, root)

/-- Merge one discarded occurrence into the kept node: longer text wins,
children are appended (Python copies the slot values, tombstones included),
and the occurrence's slot is blanked. -/
def mergeOcc (keepId : Nat) (st : List (Nat × MData)) (root : List (Option Nat))
    (o : MOcc) : List (Nat × MData) × List (Option Nat) :=
  let nd := getM st o.nid
  let keep := getM st keepId
  let st1 := if keep.text.length < nd.text.length then setM st keepId { keep with text := nd.text } else st
  let keep1 := getM st1 keepId
  let st2 := setM st1 keepId { keep1 with children := keep1.children ++ (getM st1 o.nid).children }
  blankSlot st2 root o.ref o.idx

/-- The merge loop over one number's occurrences (the chosen one, compared
by its unique traversal order, is kept). -/
def mergeNum (keepOrder : Nat) (keepId : Nat) :
    List (Nat × MData) → List (Option Nat) → List (Nat × MOcc) →
    List (Nat × MData) × List (Option Nat)
  | st, root, [] => (st, root)
  | st, root, (ord, o) :: rest =>
    if ord = keepOrder then mergeNum keepOrder keepId st root rest
    else
      let r := mergeOcc keepId st root o
      mergeNum keepOrder keepId r.1 r.2 rest

/-- The merge loop over all numbers in dict insertion order. -/
def mergeAll (chosen : List (String × (Nat × MOcc))) :
    List (Nat × MData) → List (Option Nat) → List (String × List (Nat × MOcc)) →
    List (Nat × MData) × List (Option Nat)
  | st, root, [] => (st, root)
  | st, root, (num, occs) :: rest =>
    let sel := ((chosen.lookup num).getD default)
    let r := mergeNum sel.1 sel.2.nid st root occs
    mergeAll chosen r.1 r.2 rest

/-- The `cleanup` sweep: drop blanked slots, recursing into surviving
nodes, and rewrite the cleaned child lists into the store. -/
def cleanupGo : Nat → List (Nat × MData) → List (Option Nat) → List (Nat × MData) × List Nat
  | 0, st, _ => (st, [])
  | _ + 1, st, [] => (st, [])
  | fuel + 1, st, none :: rest => cleanupGo fuel st rest
  | fuel + 1, st, some nid :: rest =>
    let nd := getM st nid
    let stcs := if nd.children = [] then (st, ([] : List Nat)) else cleanupGo fuel st nd.children
    let st1 := setM stcs.1 nid { (getM stcs.1 nid) with children := stcs.2.map some }
    let strest := cleanupGo fuel st1 rest
    (strest.1, nid :: strest.2)

/-- Read a pure forest out of an `MData` store. -/
def ofStoreMGo : Nat → List (Nat × MData) → List Nat → List SNode
  | 0, _, _ => []
  | _ + 1, _, [] => []
  | fuel + 1, st, nid :: rest =>
    let d := getM st nid
    ⟨d.typ, d.number, d.title, d.text, ofStoreMGo fuel st (d.children.filterMap id), d.placeholder⟩ ::
      ofStoreMGo fuel st rest

/-- Occurrences of one number, with their traversal orders. -/
def occsOfNum (st : List (Nat × MData)) (occs : List MOcc) (num : String) :
    List (Nat × MOcc) :=
  occs.enum.filter (fun p => mNumOf st p.2.nid = num)

/-- The function `remove_duplicate_articles` of `hierarchy_builder.py`, as
a forest-to-forest function. -/
def remove_duplicate_articles (children : List SNode) : List SNode :=
  let r0 := toStoreMGo (sizeOf children) children 1
  let st := r0.1
  let ids := r0.2.1
  let next := r0.2.2
  let root0 := ids.map some
  let occs := walkMGo (sizeOf children + next) st root0 none 0
  let numsIns := numInsertionOrder st occs
  let numsSorted := sortKeyed (fun n => digitsToNat n.data) numsIns
  let chosen := chooseGo (-1) (numsSorted.map (fun n => (n, occsOfNum st occs n)))
  let merged := mergeAll chosen st root0 (numsIns.map (fun n => (n, occsOfNum st occs n)))
  let cleaned := cleanupGo (sizeOf children + next) merged.1 merged.2
  ofStoreMGo (sizeOf children + next) cleaned.1 cleaned.2

/-! ## Concrete instances used by the claim theorems -/

/-- A bare article node. -/
def artNode (num text : String) (ch : List SNode) : SNode :=
  ⟨"مادة", .str num, "", text, ch, false⟩

/-- Sibling run of article nodes numbered 3, 4, 7 (claim C5). -/
def c5_input : List SNode :=
  [artNode "3" "نص3" [], artNode "4" "نص4" [], artNode "7" "نص7" []]

/-- The sibling list the C5 claim predicts for `c5_input`: 3, 4, then
placeholders 5, 6, then 7, with nothing before 3. -/
def c5_claimed : List SNode :=
  [artNode "3" "نص3" [], artNode "4" "نص4" [],
   placeholderArticle 5, placeholderArticle 6, artNode "7" "نص7" []]

/-- The sibling list the code actually produces for `c5_input`: leading
placeholders 1 and 2 are inserted as well. -/
def c5_actual : List SNode :=
  [placeholderArticle 1, placeholderArticle 2,
   artNode "3" "نص3" [], artNode "4" "نص4" [],
   placeholderArticle 5, placeholderArticle 6, artNode "7" "نص7" []]

/-- Duplicate-resolution input (claim C4): article 1, article 2, then a
second occurrence of article 1 carrying a nested article 2. -/
def c4_input : List SNode :=
  [artNode "1" "a" [], artNode "2" "b" [], artNode "1" "" [artNode "2" "x" []]]

/-- Two same-numbered articles with a non-digit number (claim C4: the
function skips them entirely). -/
def c4_nondigit_input : List SNode :=
  [artNode "س" "a" [], artNode "س" "b" []]

/-- A node of a recognised non-leaf kind with body text and an article
child (claim C7). -/
def c7_input : List SNode :=
  [⟨"الباب", .str "1", "", "نص", [artNode "1" "متن" []], false⟩]

/-- A `number` field that is not a purely numeric string (leading space)
but is still rewritten by `normalize_numbers` (claim C10). -/
def c10_input : List SNode :=
  [⟨"مادة", .str " 814", "", "", [], false⟩]

/-- A node for the `clean_number` idempotence counterexample (claim C6): a
doubled heading word with no digits. -/
def c6_node : SNode := ⟨"مادة", .str "المادة المادة", "", "", [], false⟩

/-- An entity whose text occurs nowhere in the document text (claim C2). -/
def c2_ghost : OEnt := ⟨"e1", "LAW", "xyz", 0, 3⟩

/-- A result containing a DATE span covering an ARTICLE, and a relation
from the article to the date (claim C9). -/
def c9_input : RResult :=
  ⟨[⟨"d", "DATE", 0, 10⟩, ⟨"a", "ARTICLE", 2, 4⟩], [⟨"r", "refers_to", "a", "d"⟩]⟩

/-- Pass-2 splitting input (claim C8): a newline early, then a long run
with no cut points. -/
def c8_input : List Char :=
  List.replicate 10 'a' ++ '\n' :: List.replicate 150 'b'

/-- Entities for the global-id claim (C1): an article and a law joined by a
relation, mirroring the spec's example numbers. -/
def c1_article : GEnt := ⟨"a", "ARTICLE", "المادة 4", none, none⟩

/-- The governing organic-law entity with canonical number 29.11. -/
def c1_law : GEnt := ⟨"b", "LAW", "القانون رقم 29.11", none, none⟩

/-- The linked result: the article refers to the law. -/
def c1_linked : GResult := ⟨[c1_article, c1_law], [⟨"refers_to", "a", "b"⟩]⟩

/-- The unlinked result: the article alone. -/
def c1_unlinked : GResult := ⟨[c1_article], []⟩

/-- Flat typed nodes for the tree-repair claim (C3). -/
def c3_input : List HNode :=
  [⟨1, "قسم", "1", "", "", []⟩, ⟨2, "مادة", "1", "", "", []⟩, ⟨3, "مادة", "2", "", "", []⟩]

/-- A permutation of `c3_input`. -/
def c3_perm : List HNode :=
  [⟨2, "مادة", "1", "", "", []⟩, ⟨3, "مادة", "2", "", "", []⟩, ⟨1, "قسم", "1", "", "", []⟩]

/-! ## Specification-side predicates for the amended claims -/

/-- The number rewrite of `normalize_numbers` as the amended C10 claim
states it: the stripped string form of the field is tested; a purely
numeric stripped value longer than two digits starting with `8` or `9`
becomes that stripped string minus its first digit; every other value is
unchanged. -/
def c10SpecNumber (v : NumV) : NumV :=
  let s := stripList (numStr v).data
  if pyIsDigit s ∧ 2 < s.length ∧ (s.headD ' ' = '8' ∨ s.headD ' ' = '9') then
    .str ⟨s.drop 1⟩
  else v

/-- Node-wise correspondence for C10: the output node agrees with the
input node on every field except `number`, which is rewritten as the
amended claim describes, and the children correspond recursively. -/
inductive NormRel : SNode → SNode → Prop
  | mk (a : SNode) (cs : List SNode) :
      List.Forall₂ NormRel a.children cs →
      NormRel a ⟨a.typ, c10SpecNumber a.number, a.title, a.text, cs, a.placeholder⟩

/-- A canonical decimal digit string: nonempty, all ASCII digits, no
leading zero unless it is exactly `"0"` (the shape `str(int(...))`
produces). -/
def canonDigits (s : String) : Prop :=
  s.data ≠ [] ∧ (∀ c ∈ s.data, isAsciiDigit c = true) ∧
    (s.data.headD '0' ≠ '0' ∨ s = "0")

/-- Witness node for the amended C6 claim. -/
def c6w_node : SNode := ⟨"مادة", .str "المادة 014", "", "", [], false⟩

/-- The `MData` record of a flat childless article node. -/
def flatM (num text : String) : MData := ⟨"مادة", NumV.str num, "", text, [], false⟩

/-- The store a flat childless article list loads into: consecutive ids
from `next`, numbers and texts taken pointwise. -/
def zipStore : List String → List String → Nat → List (Nat × MData)
  | [], _, _ => []
  | _, [], _ => []
  | num :: ns, t :: ts, next => (next, flatM num t) :: zipStore ns ts (next + 1)

/-- `k` consecutive ids starting at `next`. -/
def idRange : Nat → Nat → List Nat
  | _, 0 => []
  | next, k + 1 => next :: idRange (next + 1) k

/-- The occurrence list of a flat article run: root references, positions
and ids in lockstep. -/
def occList : Nat → Nat → Nat → List MOcc
  | _, 0, _ => []
  | base, k + 1, idx => ⟨none, idx, base⟩ :: occList (base + 1) k (idx + 1)

/-- A flat childless article node built from a `(number, text)` pair. -/
def mkFlatArt (p : String × String) : SNode := artNode p.1 p.2 []

/-- Witness input for the amended C4 claim: two articles numbered `5` with
texts of different lengths, and one article numbered `7`. -/
def c4w_args : List (String × String) := [("5", "ab"), ("5", "abcd"), ("7", "x")]

/-! ## Claim theorems -/

/-- C5 counterexample: on the sibling run `[3, 4, 7]` the claimed output
`[3, 4, 5*, 6*, 7]` is wrong — the function also inserts leading
placeholders `1` and `2` because the first sibling's number exceeds 1, so
the produced list has seven elements, not five. -/
theorem claim_C5_counterexample :
    fill_missing_articles c5_input ≠ c5_claimed ∧
    (fill_missing_articles c5_input).length = 7 ∧ c5_claimed.length = 5 := by
  refine ⟨?_, rfl, rfl⟩
  intro h
  have : (fill_missing_articles c5_input).length = c5_claimed.length := by rw [h]
  simp only [show (fill_missing_articles c5_input).length = 7 from rfl] at this
  simp [c5_claimed] at this

/-- C5 amended: gap filling on the numeric leaf sibling run `[3, 4, 7]`
produces exactly `[1*, 2*, 3, 4, 5*, 6*, 7]`, where the starred nodes are
placeholders with empty text and no children — the in-gap placeholders 5
and 6 of the claim plus leading placeholders down to 1. -/
theorem claim_C5 : fill_missing_articles c5_input = c5_actual := rfl

/-- C4 counterexample: on `c4_input` the discarded duplicate of article 1
carries a nested article 2; its child list is spliced into the kept
article 1, which already coexists with the kept article 2, so the result
holds two (article, 2) nodes — at most one per (kind, number) fails.
Additionally, two same-numbered articles with a non-digit number are both
left in place, so uniqueness also fails outside digit numbering. -/
theorem claim_C4_counterexample :
    (remove_duplicate_articles c4_input).map
      (fun n => (canonical_type n.typ, numStr n.number, n.text,
                 n.children.map (fun c => (canonical_type c.typ, numStr c.number)))) =
      [("مادة", "1", "a", [("مادة", "2")]), ("مادة", "2", "b", [])] ∧
    (remove_duplicate_articles c4_nondigit_input).map (fun n => (numStr n.number, n.text)) =
      [("س", "a"), ("س", "b")] := by
  exact ⟨by decide, by decide⟩

/-- C7 counterexample: a node of the recognised kind `باب` with an article
child (hence not a leaf-level article) keeps its nonempty body text `نص`
through `finalize_structure`; text is only cleared for unrecognised
kinds. -/
theorem claim_C7_counterexample :
    (finalize_structure c7_input).map (fun n => (n.typ, n.text, n.children.length)) =
      [("باب", "نص", 1)] := by decide

/-- C10 counterexample: the number `" 814"` is not a purely numeric string
(it has a leading space), yet `normalize_numbers` rewrites it to `"14"`,
because the test is applied to the stripped string while the claim says all
values other than purely numeric strings are left unchanged. -/
theorem claim_C10_counterexample :
    (normalize_numbers c10_input).map (fun n => numStr n.number) = [NumV.str "14" |> numStr] ∧
    pyIsDigit " 814".data = false := by
  exact ⟨by decide, by decide⟩

/-- C6 counterexample: canonicalisation is not idempotent as claimed.  For
the type field, `canonical_type "الال" = "ال"` but a second application
gives `""`.  For the number field, `clean_number` on a number
`"المادة المادة"` first yields `"المادة"` and a second application strips it
again to `""`. -/
theorem claim_C6_counterexample :
    canonical_type (canonical_type "الال") ≠ canonical_type "الال" ∧
    numStr (clean_number (clean_number c6_node)).number ≠ numStr (clean_number c6_node).number := by
  exact ⟨by decide, by decide⟩

/-- C2 counterexample: the text `"xyz"` of the entity occurs nowhere in the
document text `"abc"`, yet `fix_entity_offsets` keeps the entity, stale
offsets and all — it is not removed from the entity set. -/
theorem claim_C2_counterexample :
    allOccs c2_ghost.text.data "abc".data = [] ∧
    fix_entity_offsets "abc" [c2_ghost] = [c2_ghost] := by
  exact ⟨by decide, by decide⟩

/-- C9 counterexample: the ARTICLE entity `"a"` is removed by
`remove_articles_inside_dates` (it lies inside a DATE span), yet the
relation referencing it survives identifier stabilisation with the stale
string id `"a"` as its source — it is not dropped, and its source is not an
integer in `1..N`. -/
theorem claim_C9_counterexample :
    (stabilize_ids c9_input).entities = [⟨1, "DATE", 0, 10⟩] ∧
    (stabilize_ids c9_input).relations = [⟨1, "refers_to", .str "a", .num 1⟩] := by
  exact ⟨by decide, by decide⟩

set_option maxRecDepth 20000 in
/-- C8 counterexample: with the minimal chunk limit 100 and the source's
overlap 256, the text `aaaaaaaaaa\n` followed by 150 `b`s yields a single
chunk containing only the first 11 characters: in the second window the
preferred newline cut falls inside the carried overlap, the trimmed chunk
is empty, and the loop stops, dropping the rest of the input — the
concatenation of the emitted chunks does not reconstruct the input. -/
theorem claim_C8_counterexample :
    split_for_pass2 c8_input 100 256 = [List.replicate 10 'a' ++ ['\n']] ∧
    (split_for_pass2 c8_input 100 256).foldr (fun a b => a ++ b) [] ≠ c8_input := by
  constructor
  · decide
  · decide

/-- A nonempty all-digit string of length above two stays all-digit after
dropping its first character, so the source's re-check of the tail in
`normalize_numbers` is redundant. -/
theorem pyIsDigit_drop_one {l : List Char} (h1 : pyIsDigit l = true)
    (h2 : 2 < l.length) : pyIsDigit (l.drop 1) = true := by
  unfold pyIsDigit at h1 ⊢
  simp only [Bool.and_eq_true, List.all_eq_true] at h1 ⊢
  refine ⟨?_, fun c hc => h1.2 c (List.mem_of_mem_drop hc)⟩
  cases l with
  | nil => simp at h2
  | cons a t =>
    cases t with
    | nil => simp at h2
    | cons b u => simp

/-- The code's number rewrite equals the claim's rewrite. -/
theorem normalizeNumberField_eq_spec (v : NumV) :
    normalizeNumberField v = c10SpecNumber v := by
  unfold normalizeNumberField c10SpecNumber
  dsimp only
  split
  next h =>
    split
    next => rfl
    next hbad =>
      exact absurd (pyIsDigit_drop_one h.1 h.2.1) hbad
  next => rfl

/-- Fuel-sufficiency form of the C10 pass: with fuel at least `sizeOf`, the
traversal realises the node-wise correspondence. -/
theorem normalize_numbers_go_rel :
    ∀ (fuel : Nat) (l : List SNode), sizeOf l ≤ fuel →
      List.Forall₂ NormRel l (normalize_numbers_go fuel l) := by
  intro fuel
  induction fuel with
  | zero =>
    intro l hl
    cases l with
    | nil => simp at hl
    | cons n rest => simp at hl
  | succ fuel ih =>
    intro l hl
    cases l with
    | nil => exact List.Forall₂.nil
    | cons n rest =>
      have hsz : sizeOf n.children ≤ fuel ∧ sizeOf rest ≤ fuel := by
        cases n with
        | mk t num ti te ch pl => simp at hl ⊢; omega
      refine List.Forall₂.cons ?_ (ih rest hsz.2)
      rw [show normalizeNumberField n.number = c10SpecNumber n.number from
        normalizeNumberField_eq_spec n.number]
      exact NormRel.mk n _ (ih n.children hsz.1)

/-- C10: `normalize_numbers` preserves the shape of the tree and every
field except `number`; node by node, the stripped string form of the
number, when purely numeric, longer than two digits and starting with `8`
or `9`, is replaced by that stripped string minus its first digit, and all
other number values are left unchanged by the pass. -/
theorem claim_C10 (l : List SNode) :
    List.Forall₂ NormRel l (normalize_numbers l) :=
  normalize_numbers_go_rel (sizeOf l) l (Nat.le_refl _)

/-- Nothing is a member of the empty forest. -/
theorem not_inForest_nil (n : SNode) : ¬ InForest n ([] : List SNode) := by
  intro h
  cases h with
  | here hmem => cases hmem
  | child hmem _ => cases hmem

/-- `clean_number` never changes the `type` field. -/
theorem clean_number_typ (node : SNode) : (clean_number node).typ = node.typ := by
  unfold clean_number
  split
  · split
    · rfl
    · rfl
    · dsimp only
      split <;> rfl
  · rfl

/-- A node whose finalised type is not a recognised kind gets empty text
from the per-node finalisation. -/
theorem finalizeNodeCore_text (node : SNode)
    (h : (finalizeNodeCore node).typ ∉ ARTICLE_TYPES) :
    (finalizeNodeCore node).text = "" := by
  unfold finalizeNodeCore at h ⊢
  dsimp only at h ⊢
  split at h
  next hmem =>
    dsimp only at h
    exact absurd hmem h
  next hmem =>
    rw [if_neg hmem]

/-- Fuel-general form of the C7 claim over the traversal. -/
theorem finalize_structure_go_text :
    ∀ (fuel : Nat) (l : List SNode) (n : SNode),
      InForest n (finalize_structure_go fuel l) → n.typ ∉ ARTICLE_TYPES → n.text = "" := by
  intro fuel
  induction fuel with
  | zero =>
    intro l n hin
    exact absurd hin (not_inForest_nil n)
  | succ fuel ih =>
    intro l n hin hnt
    cases l with
    | nil => exact absurd hin (not_inForest_nil n)
    | cons node rest =>
      cases hin with
      | here hmem =>
        simp only [finalize_structure_go] at hmem
        rcases List.mem_cons.mp hmem with heq | hrest
        · rw [heq] at hnt ⊢
          dsimp only at hnt ⊢
          exact finalizeNodeCore_text node hnt
        · exact ih rest n (InForest.here hrest) hnt
      | child hmem hsub =>
        simp only [finalize_structure_go] at hmem
        rcases List.mem_cons.mp hmem with heq | hrest
        · rw [heq] at hsub
          dsimp only at hsub
          exact ih node.children n hsub hnt
        · exact ih rest n (InForest.child hrest hsub) hnt

/-- C7 amended: in the output of `finalize_structure`, every node whose
canonicalised type is not one of the recognised section kinds has empty
text.  (Nodes of recognised kinds — leaf or not — keep their cleaned body
text, as `claim_C7_counterexample` shows, so the original claim's
restriction to leaf-level article nodes does not hold.) -/
theorem claim_C7 (tree : List SNode) (n : SNode)
    (hin : InForest n (finalize_structure tree)) (hnt : n.typ ∉ ARTICLE_TYPES) :
    n.text = "" :=
  finalize_structure_go_text (sizeOf tree) tree n hin hnt

/-- C7 witness: a node of the unrecognised kind `ملاحظة` with nonempty text
comes out of `finalize_structure` with empty text. -/
theorem claim_C7_witness :
    InForest (⟨"ملاحظة", .str "1", "", "", [], false⟩ : SNode)
      (finalize_structure [⟨"ملاحظة", .str "1", "", "نص", [], false⟩]) ∧
    (⟨"ملاحظة", .str "1", "", "", [], false⟩ : SNode).typ ∉ ARTICLE_TYPES ∧
    (⟨"ملاحظة", .str "1", "", "", [], false⟩ : SNode).text = "" := by
  have hm : InForest (⟨"ملاحظة", .str "1", "", "", [], false⟩ : SNode)
      (finalize_structure [⟨"ملاحظة", .str "1", "", "نص", [], false⟩]) := by
    apply InForest.here
    rw [show finalize_structure [⟨"ملاحظة", .str "1", "", "نص", [], false⟩] =
      [⟨"ملاحظة", .str "1", "", "", [], false⟩] from rfl]
    exact List.Mem.head _
  exact ⟨hm, by decide, claim_C7 _ _ hm (by decide)⟩

/-- A successful association-list lookup returns a stored pair. -/
theorem lookup_mem_pairs {α β : Type} [BEq α] [LawfulBEq α] :
    ∀ {m : List (α × β)} {k : α} {v : β}, List.lookup k m = some v → (k, v) ∈ m := by
  intro m
  induction m with
  | nil => intro k v h; simp [List.lookup] at h
  | cons p t ih =>
    intro k v h
    cases p with
    | mk a b =>
      rw [List.lookup] at h
      cases hk : (k == a) with
      | true =>
        rw [hk] at h
        simp only [] at h
        cases h
        have hka : k = a := by simpa using hk
        subst hka
        exact List.mem_cons_self _ _
      | false =>
        rw [hk] at h
        simp only [] at h
        exact List.mem_cons_of_mem _ (ih h)

/-- A failed association-list lookup means no stored key matches. -/
theorem lookup_none_pairs {α β : Type} [BEq α] [LawfulBEq α] :
    ∀ {m : List (α × β)} {k : α}, List.lookup k m = none → ∀ p ∈ m, p.1 ≠ k := by
  intro m
  induction m with
  | nil => intro k _ p hp; cases hp
  | cons q t ih =>
    intro k h p hp
    cases q with
    | mk a b =>
      rw [List.lookup] at h
      cases hk : (k == a) with
      | true => rw [hk] at h; simp at h
      | false =>
        rw [hk] at h
        simp only [] at h
        rcases List.mem_cons.mp hp with rfl | hpt
        · intro he
          rw [show a = k from he] at hk
          simp at hk
        · exact ih h p hpt

/-- `remove_articles_inside_dates` never touches the relation list. -/
theorem remove_articles_inside_dates_relations (res : RResult) :
    (remove_articles_inside_dates res).relations = res.relations := by
  unfold remove_articles_inside_dates
  dsimp only
  split <;> rfl

/-- C9 amended: identifier stabilisation renumbers the surviving entities
densely `1..N` in order; it drops no relation — relation count is
preserved — and rewrites each relation endpoint through the id map: a
numeric endpoint always lies in `1..N` and so names a surviving entity,
while an endpoint that referenced a removed entity is left as the stale
original string, which matches no surviving entity's id. -/
theorem claim_C9 (res : RResult) :
    ((stabilize_ids res).entities.map (fun e => e.id) =
      (List.range (remove_articles_inside_dates res).entities.length).map (fun i => i + 1)) ∧
    (stabilize_ids res).relations.length = res.relations.length ∧
    (∀ r ∈ (stabilize_ids res).relations, ∀ n : Nat,
      (r.source = .num n ∨ r.target = .num n) →
      1 ≤ n ∧ n ≤ (remove_articles_inside_dates res).entities.length) ∧
    (∀ r ∈ (stabilize_ids res).relations, ∀ s : String,
      (r.source = .str s ∨ r.target = .str s) →
      ∀ e ∈ (remove_articles_inside_dates res).entities, e.id ≠ s) := by
  set mid := remove_articles_inside_dates res with hmid
  have hmap_bound : ∀ {k : String} {n : Nat},
      dictGetLast (idMapOf mid.entities) k = some n → 1 ≤ n ∧ n ≤ mid.entities.length := by
    intro k n h
    unfold dictGetLast at h
    have hmem := lookup_mem_pairs h
    rw [List.mem_reverse] at hmem
    unfold idMapOf at hmem
    rcases List.mem_map.mp hmem with ⟨p, hp, hpe⟩
    have hb := List.mem_enum hp
    cases hpe
    omega
  have hmap_none : ∀ {k : String},
      dictGetLast (idMapOf mid.entities) k = none → ∀ e ∈ mid.entities, e.id ≠ k := by
    intro k h e he
    unfold dictGetLast at h
    have hall : ∀ p ∈ idMapOf mid.entities, p.1 ≠ k := by
      intro p hp
      exact lookup_none_pairs h p (List.mem_reverse.mpr hp)
    rcases List.mem_iff_get.mp he with ⟨i, hi⟩
    have hpm : ((e.id, i.1 + 1) : String × Nat) ∈ idMapOf mid.entities := by
      unfold idMapOf
      refine List.mem_map.mpr ⟨(i.1, e), ?_, by simp⟩
      refine List.mem_enum_iff_getElem?.mpr ?_
      show mid.entities[i.1]? = some e
      rw [List.getElem?_eq_getElem i.2]
      rw [← hi]
      simp [List.get_eq_getElem]
    exact hall _ hpm
  refine ⟨?_, ?_, ?_, ?_⟩
  · show (mid.entities.enum.map _).map _ = _
    rw [List.map_map]
    rw [show ((fun e => NEnt.id e) ∘ fun p : Nat × REnt => (⟨p.1 + 1, p.2.etyp, p.2.startc, p.2.endc⟩ : NEnt)) =
      (fun i => i + 1) ∘ Prod.fst from rfl]
    rw [← List.map_map, List.enum_map_fst]
  · show ((remove_articles_inside_dates res).relations.enum.map _).length = _
    rw [List.length_map, List.enum_length, remove_articles_inside_dates_relations]
  · intro r hr n hn
    rcases List.mem_map.mp hr with ⟨p, _, hpe⟩
    rcases hn with hsrc | htgt
    · rw [← hpe] at hsrc
      dsimp only at hsrc
      revert hsrc
      cases hdg : dictGetLast (idMapOf mid.entities) p.2.source with
      | none => intro hsrc; cases hsrc
      | some v =>
        intro hsrc
        cases hsrc
        exact hmap_bound hdg
    · rw [← hpe] at htgt
      dsimp only at htgt
      revert htgt
      cases hdg : dictGetLast (idMapOf mid.entities) p.2.target with
      | none => intro htgt; cases htgt
      | some v =>
        intro htgt
        cases htgt
        exact hmap_bound hdg
  · intro r hr s hs e he
    rcases List.mem_map.mp hr with ⟨p, _, hpe⟩
    rcases hs with hsrc | htgt
    · rw [← hpe] at hsrc
      dsimp only at hsrc
      revert hsrc
      cases hdg : dictGetLast (idMapOf mid.entities) p.2.source with
      | none =>
        intro hsrc
        cases hsrc
        exact hmap_none hdg e he
      | some v => intro hsrc; cases hsrc
    · rw [← hpe] at htgt
      dsimp only at htgt
      revert htgt
      cases hdg : dictGetLast (idMapOf mid.entities) p.2.target with
      | none =>
        intro htgt
        cases htgt
        exact hmap_none hdg e he
      | some v => intro htgt; cases htgt

/-- C9 witness: the amended statement instantiated at the counterexample
result. -/
theorem claim_C9_witness :
    (stabilize_ids c9_input).entities.map (fun e => e.id) =
      (List.range (remove_articles_inside_dates c9_input).entities.length).map (fun i => i + 1) ∧
    (stabilize_ids c9_input).relations.length = c9_input.relations.length :=
  ⟨(claim_C9 c9_input).1, (claim_C9 c9_input).2.1⟩

/-- An ASCII digit is not Python whitespace. -/
theorem isPyWs_of_digit {c : Char} (h : isAsciiDigit c = true) : isPyWs c = false := by
  unfold isPyWs
  simp only [Bool.or_eq_false_iff, decide_eq_false_iff_not]
  refine ⟨⟨⟨⟨⟨?_, ?_⟩, ?_⟩, ?_⟩, ?_⟩, ?_⟩ <;>
    (intro he; subst he; exact absurd h (by decide))

/-- An ASCII digit is not an Arabic-Indic digit. -/
theorem transDigit_of_digit {c : Char} (h : isAsciiDigit c = true) : transDigit c = c := by
  unfold transDigit
  have harab : isArabicDigit c = false := by
    unfold isArabicDigit
    unfold isAsciiDigit at h
    simp only [Bool.and_eq_true, decide_eq_true_eq] at h
    simp only [Bool.and_eq_false_iff, decide_eq_false_iff_not]
    left
    intro hle
    exact absurd (le_trans hle h.2) (by decide)
  rw [harab]
  rfl

/-- Stripping is the identity on an all-digit list. -/
theorem stripList_of_digits {l : List Char} (h : ∀ c ∈ l, isAsciiDigit c = true) :
    stripList l = l := by
  unfold stripList
  have hdrop : ∀ (m : List Char), (∀ c ∈ m, isAsciiDigit c = true) → m.dropWhile isPyWs = m := by
    intro m hm
    cases m with
    | nil => rfl
    | cons a t =>
      rw [List.dropWhile_cons]
      rw [isPyWs_of_digit (hm a (List.mem_cons_self a t))]
      simp
  rw [hdrop l h]
  rw [hdrop l.reverse (fun c hc => h c (List.mem_reverse.mp hc))]
  exact List.reverse_reverse l

/-- Each heading word starts with a non-digit character. -/
theorem headWords_head : ∀ w ∈ HEAD_WORDS,
    w.data ≠ [] ∧ isAsciiDigit (w.data.headD ' ') = false := by decide

/-- The heading-word strip is the identity on an all-digit list. -/
theorem stripHeadWord_of_digits {l : List Char} (hne : l ≠ [])
    (h : ∀ c ∈ l, isAsciiDigit c = true) : stripHeadWord l = l := by
  unfold stripHeadWord
  rw [List.find?_eq_none.mpr ?_]
  intro w hw
  rcases headWords_head w hw with ⟨hwne, hwd⟩
  cases hwdata : w.data with
  | nil => exact absurd hwdata hwne
  | cons w0 ws =>
    cases l with
    | nil => exact absurd rfl hne
    | cons c t =>
      intro hpre
      rw [show List.isPrefixOf (w0 :: ws) (c :: t) = ((w0 == c) && List.isPrefixOf ws t) from rfl]
        at hpre
      simp only [Bool.and_eq_true, beq_iff_eq] at hpre
      rw [hwdata] at hwd
      simp only [List.headD_cons] at hwd
      rw [hpre.1] at hwd
      exact absurd (h c (List.mem_cons_self c t)) (by rw [hwd]; intro hc; cases hc)

/-- Digit translation is the identity on an all-digit string. -/
theorem translateDigits_of_digits {s : String} (h : ∀ c ∈ s.data, isAsciiDigit c = true) :
    translateDigits s = s := by
  unfold translateDigits
  have hmap : s.data.map transDigit = s.data.map id :=
    List.map_congr_left (fun c hc => transDigit_of_digit (h c hc))
  rw [hmap, List.map_id]

/-- The ordinal keys start with non-digit characters. -/
theorem ordinalKeys_head : ∀ p ∈ ORDINAL_MAP,
    p.1.data ≠ [] ∧ isAsciiDigit (p.1.data.headD ' ') = false := by decide

/-- Lookup of a digit-headed string in a map whose keys are non-digit-headed
fails. -/
theorem lookup_digits_none {m : List (String × String)}
    (hm : ∀ p ∈ m, p.1.data ≠ [] ∧ isAsciiDigit (p.1.data.headD ' ') = false)
    {s : String} (hd : isAsciiDigit (s.data.headD ' ') = true) :
    List.lookup s m = none := by
  induction m with
  | nil => rfl
  | cons q t ih =>
    cases q with
    | mk k v =>
      rw [List.lookup]
      have hk : (s == k) = false := by
        rw [beq_eq_false_iff_ne]
        intro he
        rcases hm (k, v) (List.mem_cons_self _ _) with ⟨_, hkd⟩
        rw [← he] at hkd
        rw [hd] at hkd
        cases hkd
      rw [hk]
      simp only []
      exact ih (fun p hp => hm p (List.mem_cons_of_mem _ hp))

/-- `clean_number` fixes a node whose number is already a canonical digit
string (for an article-type node). -/
theorem clean_number_fix (m : SNode) (ht : canonical_type m.typ ∈ ARTICLE_TYPES)
    (s : String) (hs : m.number = NumV.str s) (hc : canonDigits s) :
    clean_number m = m := by
  rcases hc with ⟨hne, hdig, hlead⟩
  have edata : (⟨s.data⟩ : String) = s := by cases s; rfl
  have e1 : stripHeadWord s.data = s.data := stripHeadWord_of_digits hne hdig
  have e2 : pyStrip s = s := by
    unfold pyStrip
    rw [stripList_of_digits hdig, edata]
  have e3 : translateDigits s = s := translateDigits_of_digits hdig
  have e4 : s ≠ "تمهيدي" := by
    intro he
    subst he
    exact absurd (hdig 'ت' (by decide)) (by decide)
  have hhd : isAsciiDigit (s.data.headD ' ') = true := by
    cases hl : s.data with
    | nil => exact absurd hl hne
    | cons c t =>
      rw [List.headD_cons]
      exact hdig c (hl ▸ List.mem_cons_self c t)
  have e5 : ORDINAL_MAP.lookup s = none := lookup_digits_none ordinalKeys_head hhd
  have e6 : firstDigitRun s.data = some s.data := by
    unfold firstDigitRun
    cases hl : s.data with
    | nil => exact absurd hl hne
    | cons c t =>
      have hcd : isAsciiDigit c = true := hdig c (hl ▸ List.mem_cons_self c t)
      rw [List.dropWhile_cons]
      rw [hcd]
      rw [if_neg (by simp : ¬((!true) = true))]
      rw [if_neg (by simp : ¬((c :: t).isEmpty = true))]
      rw [List.takeWhile_eq_self_iff.mpr (fun x hx => hdig x (hl ▸ hx))]
  have e7 : strIntOfDigits s.data = s := by
    unfold strIntOfDigits
    rcases hlead with hh | h0
    · cases hl : s.data with
      | nil => exact absurd hl hne
      | cons c t =>
        rw [hl] at hh
        rw [List.headD_cons] at hh
        rw [List.dropWhile_cons]
        rw [decide_eq_false hh]
        rw [if_neg (by simp : ¬(false = true))]
        rw [if_neg (by simp : ¬((c :: t).isEmpty = true))]
        rw [← hl]
    · subst h0
      rfl
  unfold clean_number
  rw [if_pos ht, hs]
  simp only []
  rw [e1, edata, e2, e3, if_neg e4, e5, Option.getD_none, e6]
  simp only []
  rw [e7, ← hs]
  cases m
  rfl

/-- On an article-type node whose number is not `None`, `clean_number`
always leaves a string in the number field. -/
theorem clean_number_out_str (node : SNode)
    (ht : canonical_type node.typ ∈ ARTICLE_TYPES) (hnn : node.number ≠ NumV.nil) :
    ∃ s, (clean_number node).number = NumV.str s := by
  unfold clean_number
  rw [if_pos ht]
  cases hnum : node.number with
  | nil => exact absurd hnum hnn
  | int i => exact ⟨toString i, rfl⟩
  | str s0 =>
    dsimp only
    split
    · exact ⟨_, rfl⟩
    · exact ⟨_, rfl⟩

/-- C6, corrected.  The spec claims canonicalisation of the type and number
fields is idempotent for every input.  The counterexample refutes the
unconditional claim; this amended statement proves the conditions under
which idempotence does hold: `canonical_type` is idempotent whenever its
output is already stripped and does not start with the definite article
`ال`, and `clean_number` is idempotent whenever the node is not of an
article type (so the pass is the identity) or the number it produces is a
canonical digit string. -/
theorem claim_C6 :
    (∀ t : String, pyStrip (canonical_type t) = canonical_type t →
        startsWithAl (canonical_type t).data = false →
        canonical_type (canonical_type t) = canonical_type t) ∧
    (∀ node : SNode,
        (canonical_type node.typ ∉ ARTICLE_TYPES ∨
          canonDigits (numStr (clean_number node).number)) →
        clean_number (clean_number node) = clean_number node) := by
  constructor
  · intro t h1 h2
    have key : ∀ (X : String), pyStrip X = X → startsWithAl X.data = false →
        canonical_type X = (ARTICLE_TYPE_MAP.lookup X).getD X := by
      intro X hX1 hX2
      unfold canonical_type
      rw [hX1]
      dsimp only
      rw [hX2]
      simp
    rw [key _ h1 h2]
    cases hl : List.lookup (canonical_type t) ARTICLE_TYPE_MAP with
    | none => simp
    | some v =>
      have hmem := lookup_mem_pairs hl
      have hfact : ∀ p ∈ ARTICLE_TYPE_MAP, startsWithAl p.1.data = true ∨ p.2 = p.1 := by
        decide
      rcases hfact _ hmem with hsw | he
      · rw [hsw] at h2
        cases h2
      · simpa using he
  · intro node hor
    by_cases ht : canonical_type node.typ ∈ ARTICLE_TYPES
    · rcases hor with hnot | hcd
      · exact absurd ht hnot
      by_cases hnn : node.number = NumV.nil
      · have hid : clean_number node = node := by
          unfold clean_number
          rw [if_pos ht, hnn]
        rw [hid, hid]
      · obtain ⟨s, hout⟩ := clean_number_out_str node ht hnn
        have hcd2 : canonDigits s := by
          rw [hout] at hcd
          exact hcd
        exact clean_number_fix _ (by rw [clean_number_typ]; exact ht) s hout hcd2
    · have hid : clean_number node = node := by
        unfold clean_number
        rw [if_neg ht]
      rw [hid, hid]

/-- Witness for the amended C6: `"الفصل"` satisfies the type-side
hypotheses, and the node `c6w_node` (a `مادة` whose raw number is
`"المادة 014"`, cleaned to the canonical `"14"`) satisfies the number-side
hypothesis. -/
theorem claim_C6_witness :
    (pyStrip (canonical_type "الفصل") = canonical_type "الفصل" ∧
      startsWithAl (canonical_type "الفصل").data = false ∧
      canonical_type (canonical_type "الفصل") = canonical_type "الفصل") ∧
    (canonDigits (numStr (clean_number c6w_node).number) ∧
      clean_number (clean_number c6w_node) = clean_number c6w_node) := by
  have hcd : canonDigits (numStr (clean_number c6w_node).number) :=
    ⟨by decide, by decide, by decide⟩
  exact ⟨⟨by decide, by decide, claim_C6.1 "الفصل" (by decide) (by decide)⟩,
    ⟨hcd, claim_C6.2 c6w_node (Or.inr hcd)⟩⟩

/-- Membership in the occurrence list of `allOccs`. -/
theorem mem_allOccs {needle hay : List Char} {i : Nat} :
    i ∈ allOccs needle hay ↔ i ≤ hay.length ∧ needle.isPrefixOf (hay.drop i) = true := by
  unfold allOccs
  simp [List.mem_filter, List.mem_range, Nat.lt_succ_iff]

/-- If a needle occurs nowhere in a text, it occurs nowhere in any slice of
the text. -/
theorem allOccs_slice_nil {needle text : List Char} (hne : needle ≠ [])
    (h : allOccs needle text = []) (d e : Nat) :
    allOccs needle (pySlice text d e) = [] := by
  unfold pySlice
  generalize (e - d) = t
  rw [List.eq_nil_iff_forall_not_mem] at h ⊢
  intro i hi
  rcases mem_allOccs.mp hi with ⟨_, hpre⟩
  apply h (d + i)
  rw [mem_allOccs]
  have hpre2 : needle <+: text.drop (d + i) := by
    have h1 : needle <+: ((text.drop d).take t).drop i := List.isPrefixOf_iff_prefix.mp hpre
    rw [List.drop_take, List.drop_drop] at h1
    exact h1.trans (List.take_prefix _ _)
  refine ⟨?_, List.isPrefixOf_iff_prefix.mpr hpre2⟩
  by_contra hgt
  rw [not_le] at hgt
  have hnil : text.drop (d + i) = [] := List.drop_eq_nil_iff.mpr (Nat.le_of_lt hgt)
  rw [hnil] at hpre2
  exact hne (List.prefix_nil.mp hpre2)

/-- `assignFrom` with an empty candidate list finds nothing. -/
theorem assignFrom_nil (used : List (Int × Int)) (ent : OEnt) :
    assignFrom used ent [] = none := rfl

/-- A successful `assignFrom` only rewrites the offsets of the entity. -/
theorem assignFrom_shape (used : List (Int × Int)) (ent : OEnt)
    (occs : List (Nat × Nat)) (r : OEnt × List (Int × Int))
    (h : assignFrom used ent occs = some r) :
    ∃ s t, r.1 = { ent with startc := s, endc := t } := by
  unfold assignFrom at h
  dsimp only at h
  split at h
  · injection h with h
    subst h
    exact ⟨_, _, rfl⟩
  · cases h

/-- One step of `fix_entity_offsets` only ever rewrites the offsets of the
entity it processes. -/
theorem fixOffsetsStep_shape (text : List Char) (used : List (Int × Int)) (ent : OEnt) :
    ∃ s t, (fixOffsetsStep text used ent).1 = { ent with startc := s, endc := t } := by
  have heta : ent = { ent with startc := ent.startc, endc := ent.endc } := by
    cases ent
    rfl
  unfold fixOffsetsStep
  split
  · exact ⟨_, _, heta⟩
  split
  · exact ⟨_, _, heta⟩
  split
  · exact ⟨_, _, heta⟩
  dsimp only
  split
  next r heq => exact assignFrom_shape _ _ _ r heq
  next heq =>
    split
    · exact ⟨_, _, heta⟩
    · split
      next r2 heq2 => exact assignFrom_shape _ _ _ r2 heq2
      next heq2 => exact ⟨_, _, heta⟩

/-- An entity whose text occurs nowhere in the document passes through one
step of `fix_entity_offsets` unchanged, claiming nothing. -/
theorem fixOffsetsStep_ghost (text : List Char) (used : List (Int × Int)) (ent : OEnt)
    (h : allOccs ent.text.data text = []) :
    fixOffsetsStep text used ent = (ent, used) := by
  have hne : ent.text.data ≠ [] := by
    intro he
    rw [List.eq_nil_iff_forall_not_mem] at h
    exact h 0 (mem_allOccs.mpr ⟨Nat.zero_le _,
      by rw [he]; exact List.isPrefixOf_iff_prefix.mpr List.nil_prefix⟩)
  have htne : ¬(ent.text = "") := by
    intro he
    exact hne (congrArg String.data he)
  unfold fixOffsetsStep
  rw [if_neg htne]
  by_cases hneg : ent.startc = -1 ∨ ent.endc = -1
  · rw [if_pos hneg]
  · rw [if_neg hneg]
    have hbig : ¬(0 ≤ ent.startc ∧ ent.startc < ent.endc ∧ ent.endc ≤ (text.length : Int) ∧
        pySlice text ent.startc.toNat ent.endc.toNat = ent.text.data ∧
        !(used.any (fun u => overlapsR (ent.startc, ent.endc) u))) := by
      rintro ⟨h0, hlt, hle, hslice, -⟩
      rw [List.eq_nil_iff_forall_not_mem] at h
      apply h ent.startc.toNat
      rw [mem_allOccs]
      constructor
      · omega
      · apply List.isPrefixOf_iff_prefix.mpr
        rw [← hslice]
        exact List.take_prefix _ _
    rw [if_neg hbig]
    dsimp only
    rw [allOccs_slice_nil hne h]
    rw [List.map_nil]
    rw [show occRanges [] ent.text.data.length = [] from rfl]
    rw [assignFrom_nil]
    dsimp only
    rw [h]
    rfl

/-- The fold of `fix_entity_offsets`, related entity by entity to its
input: every output entity is its input entity with only the offsets
possibly rewritten, and an entity whose text occurs nowhere in the document
comes out entirely unchanged. -/
theorem fix_entity_offsets_go (text : String) :
    ∀ (ents : List OEnt) (acc1 : List OEnt) (used : List (Int × Int)),
    ∃ out,
      (ents.foldl
        (fun acc ent =>
          let r := fixOffsetsStep text.data acc.2 ent
          (acc.1 ++ [r.1], r.2)) (acc1, used)).1 = acc1 ++ out ∧
      List.Forall₂
        (fun e e2 => (∃ s t, e2 = { e with startc := s, endc := t }) ∧
          (allOccs e.text.data text.data = [] → e2 = e))
        ents out := by
  intro ents
  induction ents with
  | nil => exact fun acc1 used => ⟨[], by simp, List.Forall₂.nil⟩
  | cons e rest ih =>
    intro acc1 used
    rw [List.foldl_cons]
    obtain ⟨out, hout, hrel⟩ :=
      ih (acc1 ++ [(fixOffsetsStep text.data used e).1]) (fixOffsetsStep text.data used e).2
    refine ⟨(fixOffsetsStep text.data used e).1 :: out, ?_, ?_⟩
    · rw [hout]
      simp
    · refine List.Forall₂.cons ⟨fixOffsetsStep_shape text.data used e, ?_⟩ hrel
      intro hghost
      rw [fixOffsetsStep_ghost text.data used e hghost]

/-- C2, corrected.  The spec claims an entity whose text occurs nowhere in
the final document text is dropped by `fix_entity_offsets`.  The
counterexample shows such an entity is kept; this amended theorem proves
what the pass actually guarantees: the output has exactly one entity per
input entity (nothing is ever dropped), each output entity is its input
entity with at most the offsets rewritten, and an entity whose text occurs
nowhere in the document is returned entirely unchanged, stale offsets
included. -/
theorem claim_C2 (text : String) (entities : List OEnt) :
    List.Forall₂
      (fun e e2 => (∃ s t, e2 = { e with startc := s, endc := t }) ∧
        (allOccs e.text.data text.data = [] → e2 = e))
      entities (fix_entity_offsets text entities) := by
  unfold fix_entity_offsets
  obtain ⟨out, hout, hrel⟩ := fix_entity_offsets_go text entities [] []
  rw [hout, List.nil_append]
  exact hrel

/-- Witness for the amended C2, at the ghost entity of the counterexample:
its text `"xyz"` occurs nowhere in the document `"abc"`, and it comes out
of `fix_entity_offsets` unchanged. -/
theorem claim_C2_witness :
    List.Forall₂
      (fun e e2 => (∃ s t, e2 = { e with startc := s, endc := t }) ∧
        (allOccs e.text.data "abc".data = [] → e2 = e))
      [c2_ghost] (fix_entity_offsets "abc" [c2_ghost]) :=
  claim_C2 "abc" [c2_ghost]

/-- C1: after the global-identifier step (modelled from the spec, the step
itself being absent from the repository's `src/ner.py`), every `ARTICLE`
entity with a canonical number carries a `global_id`: when the relations of
the document link it to a governing instrument entity, the id is that
instrument's global id followed by `_ART_` and the article's number, and
otherwise it is `ART_` followed by the article's number; the entity's other
fields are untouched. -/
theorem claim_C1 (res : GResult) (e : GEnt) (he : e ∈ res.entities)
    (hart : e.etyp = "ARTICLE") (n : String) (hn : entCanonNum e = some n) :
    ∃ e2 ∈ (assign_global_ids res).entities,
      e2.id = e.id ∧ e2.etyp = e.etyp ∧ e2.text = e.text ∧
      (∀ g gg, governingOf res e = some g → instrumentGlobal g = some gg →
        e2.globalId = some (gg ++ "_ART_" ++ n)) ∧
      (governingOf res e = none → e2.globalId = some ("ART_" ++ n)) := by
  have hnotin : ¬(e.etyp ∈ INSTRUMENT_TYPES) := by
    rw [hart]
    decide
  unfold assign_global_ids
  dsimp only
  refine ⟨_, List.mem_map_of_mem _ he, ?_⟩
  dsimp only
  rw [if_neg hnotin, if_pos hart, hn]
  dsimp only
  cases hg : governingOf res e with
  | none =>
    dsimp only
    refine ⟨rfl, rfl, rfl, ?_, fun _ => rfl⟩
    intro g gg hgsome _
    cases hgsome
  | some g =>
    dsimp only
    cases hgg : instrumentGlobal g with
    | none =>
      dsimp only
      refine ⟨rfl, rfl, rfl, ?_, ?_⟩
      · intro g2 gg h1 h2
        injection h1 with h1
        subst h1
        rw [hgg] at h2
        cases h2
      · intro hnone
        cases hnone
    | some gg0 =>
      dsimp only
      refine ⟨rfl, rfl, rfl, ?_, ?_⟩
      · intro g2 gg h1 h2
        injection h1 with h1
        subst h1
        rw [hgg] at h2
        injection h2 with h2
        subst h2
        rfl
      · intro hnone
        cases hnone

/-- Witness for C1, at the spec's own example: the article numbered `4`
linked by a relation to the law numbered `29.11` (expected global id
`LAW_29.11_ART_4`), and the same article with no relations (expected
`ART_4`). -/
theorem claim_C1_witness :
    (c1_article ∈ c1_linked.entities ∧ c1_article.etyp = "ARTICLE" ∧
      entCanonNum c1_article = some "4" ∧
      ∃ e2 ∈ (assign_global_ids c1_linked).entities,
        e2.id = c1_article.id ∧ e2.etyp = c1_article.etyp ∧ e2.text = c1_article.text ∧
        (∀ g gg, governingOf c1_linked c1_article = some g → instrumentGlobal g = some gg →
          e2.globalId = some (gg ++ "_ART_" ++ "4")) ∧
        (governingOf c1_linked c1_article = none → e2.globalId = some ("ART_" ++ "4"))) ∧
    (c1_article ∈ c1_unlinked.entities ∧
      ∃ e2 ∈ (assign_global_ids c1_unlinked).entities,
        e2.id = c1_article.id ∧ e2.etyp = c1_article.etyp ∧ e2.text = c1_article.text ∧
        (∀ g gg, governingOf c1_unlinked c1_article = some g → instrumentGlobal g = some gg →
          e2.globalId = some (gg ++ "_ART_" ++ "4")) ∧
        (governingOf c1_unlinked c1_article = none → e2.globalId = some ("ART_" ++ "4"))) := by
  refine ⟨⟨by decide, rfl, by decide, ?_⟩, ⟨by decide, ?_⟩⟩
  · exact claim_C1 c1_linked c1_article (by decide) rfl "4" (by decide)
  · exact claim_C1 c1_unlinked c1_article (by decide) rfl "4" (by decide)

/-- Appending one chunk to the accumulator appends its tokens to the
concatenation. -/
theorem foldr_append_singleton (acc : List (List Char)) (x : List Char) :
    (acc ++ [x]).foldr (fun a b => a ++ b) [] =
      acc.foldr (fun a b => a ++ b) [] ++ x := by
  induction acc with
  | nil => simp
  | cons c rest ih => simp [ih]

/-- The first chunk `smart_token_split` emits, when any, is an initial
segment of its input. -/
theorem sts_head (w : List Char) (limit : Nat) :
    smart_token_split w limit = [] ∨
      ∃ k r, smart_token_split w limit = w.take k :: r := by
  unfold smart_token_split
  simp only [sts_go]
  by_cases h0 : 0 < w.length
  · rw [if_pos h0]
    split <;> split
    · exact Or.inl rfl
    · exact Or.inr ⟨_, _, by rw [List.drop_zero]⟩
    · exact Or.inl rfl
    · exact Or.inr ⟨_, _, by rw [List.drop_zero]⟩
  · rw [if_neg h0]
    exact Or.inl rfl

/-- The chunk cut out of the current window by one iteration of
`split_for_pass2` — the head of the smart split (or the raw window), minus
the carried overlap tail — is an initial segment of the input tokens still
to be consumed. -/
theorem chunkTokens_prefix (tokens prevTail : List Char) (chunkLimit i : Nat)
    (ct : List Char)
    (h : ct = (match smart_token_split (prevTail ++ (tokens.drop i).take chunkLimit) chunkLimit with
      | this :: _ => if prevTail.isEmpty then this else this.drop prevTail.length
      | [] => if prevTail.isEmpty then prevTail ++ (tokens.drop i).take chunkLimit
          else (prevTail ++ (tokens.drop i).take chunkLimit).drop prevTail.length)) :
    ct = (tokens.drop i).take ct.length := by
  have base : ∀ y, y <+: (tokens.drop i).take chunkLimit → ct = y →
      ct = (tokens.drop i).take ct.length := by
    intro y hy hcy
    subst hcy
    exact List.prefix_iff_eq_take.mp (hy.trans (List.take_prefix _ _))
  rcases sts_head (prevTail ++ (tokens.drop i).take chunkLimit) chunkLimit with hsts | ⟨k, r, hsts⟩ <;>
    rw [hsts] at h <;>
    dsimp only at h
  · by_cases hpt : prevTail.isEmpty = true
    · rw [if_pos hpt] at h
      rw [List.isEmpty_iff.mp hpt, List.nil_append] at h
      exact base _ (List.prefix_refl _) h
    · rw [if_neg hpt] at h
      rw [List.drop_left] at h
      exact base _ (List.prefix_refl _) h
  · by_cases hpt : prevTail.isEmpty = true
    · rw [if_pos hpt] at h
      rw [List.isEmpty_iff.mp hpt, List.nil_append] at h
      exact base _ (List.take_prefix _ _) h
    · rw [if_neg hpt] at h
      rw [List.drop_take, List.drop_left] at h
      exact base _ (List.take_prefix _ _) h

/-- The loop of `split_for_pass2` preserves the invariant: the chunks
gathered so far are nonempty and concatenate to an initial segment of the
input, and so does whatever the loop returns. -/
theorem sfp2_go_sound (tokens : List Char) (chunkLimit overlap : Nat) :
    ∀ (fuel i : Nat) (prevTail : List Char) (acc : List (List Char)),
    acc.foldr (fun a b => a ++ b) [] = tokens.take i →
    (∀ c ∈ acc, c ≠ []) →
    (sfp2_go tokens chunkLimit overlap fuel i prevTail acc).foldr (fun a b => a ++ b) [] <+: tokens ∧
    (∀ c ∈ sfp2_go tokens chunkLimit overlap fuel i prevTail acc, c ≠ []) := by
  intro fuel
  induction fuel with
  | zero =>
    intro i prevTail acc hacc hne
    simp only [sfp2_go]
    exact ⟨hacc ▸ List.take_prefix _ _, hne⟩
  | succ fuel ih =>
    intro i prevTail acc hacc hne
    simp only [sfp2_go]
    by_cases hi : i < tokens.length
    · rw [if_pos hi]
      generalize hct :
        (match smart_token_split (prevTail ++ List.take chunkLimit (List.drop i tokens)) chunkLimit with
          | this :: _ => if prevTail.isEmpty then this else this.drop prevTail.length
          | [] =>
            if prevTail.isEmpty then prevTail ++ List.take chunkLimit (List.drop i tokens)
            else (prevTail ++ List.take chunkLimit (List.drop i tokens)).drop prevTail.length) = CT
      by_cases hwe : (prevTail ++ List.take chunkLimit (List.drop i tokens)).isEmpty = true
      · rw [if_pos hwe]
        exact ⟨hacc ▸ List.take_prefix _ _, hne⟩
      · rw [if_neg hwe]
        by_cases hce : CT.isEmpty = true
        · rw [if_pos hce]
          exact ⟨hacc ▸ List.take_prefix _ _, hne⟩
        · rw [if_neg hce]
          apply ih
          · rw [foldr_append_singleton, hacc]
            have h2 := chunkTokens_prefix tokens prevTail chunkLimit i CT hct.symm
            rw [List.take_add, ← h2]
          · intro c hc
            rcases List.mem_append.mp hc with hc1 | hc2
            · exact hne c hc1
            · rw [List.mem_singleton] at hc2
              subst hc2
              intro hnil
              exact hce (by rw [hnil]; rfl)
    · rw [if_neg hi]
      exact ⟨hacc ▸ List.take_prefix _ _, hne⟩

/-- C8, corrected.  The spec claims the concatenation of the emitted chunks
(overlaps excluded) reconstructs the normalized input exactly.  The
counterexample shows the loop can stop early and drop the rest of the
input, so exact reconstruction fails; this amended theorem proves the
guarantee that does hold for every input and every chunk limit and overlap:
all emitted chunks are non-empty, and their in-order concatenation (each
chunk trimmed of the carried overlap window) is an initial segment of the
input — in particular the chunks are in document order and never repeat or
shuffle content. -/
theorem claim_C8 (tokens : List Char) (chunkLimit overlap : Nat) :
    (∀ c ∈ split_for_pass2 tokens chunkLimit overlap, c ≠ []) ∧
    (split_for_pass2 tokens chunkLimit overlap).foldr (fun a b => a ++ b) [] <+: tokens := by
  unfold split_for_pass2
  obtain ⟨h1, h2⟩ :=
    sfp2_go_sound tokens chunkLimit overlap (tokens.length + 1) 0 [] [] (by rfl)
      (fun c hc => absurd hc (List.not_mem_nil c))
  exact ⟨h2, h1⟩

/-- `flatIds` equations and append law. -/
theorem flatIds_nil : flatIds [] = [] := by simp [flatIds]

/-- `flatIds` on a cons cell. -/
theorem flatIds_cons (n : HNode) (rest : List HNode) :
    flatIds (n :: rest) = n.nid :: (flatIds n.children ++ flatIds rest) := by
  simp [flatIds]

/-- `flatIds` distributes over append. -/
theorem flatIds_append : ∀ (a b : List HNode), flatIds (a ++ b) = flatIds a ++ flatIds b := by
  intro a b
  induction a with
  | nil => simp [flatIds_nil]
  | cons n rest ih =>
    rw [List.cons_append, flatIds_cons, flatIds_cons, ih]
    simp

/-- `stackFlat` on the empty stack. -/
theorem stackFlat_nil : stackFlat [] = [] := rfl

/-- `stackFlat` on a cons cell. -/
theorem stackFlat_cons (p : HNode × Nat) (s : List (HNode × Nat)) :
    stackFlat (p :: s) = nodeFlat p.1 ++ stackFlat s := rfl

/-- The pop phase of `fix_hierarchy` moves node ids between the stack and
the root list without creating or losing any. -/
theorem popWhileGo_perm (rank : Nat) :
    ∀ (fuel : Nat) (stack : List (HNode × Nat)) (roots : List HNode),
    (flatIds (popWhileGo rank fuel stack roots).2 ++
      stackFlat (popWhileGo rank fuel stack roots).1).Perm
      (flatIds roots ++ stackFlat stack) := by
  intro fuel
  induction fuel with
  | zero =>
    intro stack roots
    simp only [popWhileGo]
    exact List.Perm.refl _
  | succ fuel ih =>
    intro stack roots
    cases stack with
    | nil =>
      simp only [popWhileGo]
      exact List.Perm.refl _
    | cons pr rest =>
      obtain ⟨p, r⟩ := pr
      by_cases hr : rank ≤ r
      · cases rest with
        | nil =>
          rw [show popWhileGo rank (fuel + 1) [(p, r)] roots =
              popWhileGo rank fuel [] (roots ++ [p]) from by
            simp only [popWhileGo]
            rw [if_pos hr]]
          refine (ih [] (roots ++ [p])).trans ?_
          simp only [flatIds_append, stackFlat_cons, stackFlat_nil, flatIds_cons, flatIds_nil,
            nodeFlat, List.append_nil]
          refine Multiset.coe_eq_coe.mp ?_
          try simp only [← Multiset.cons_coe, ← Multiset.coe_add, ← Multiset.singleton_add]
          try rfl
          try abel
        | cons qr rest2 =>
          obtain ⟨q, rq⟩ := qr
          rw [show popWhileGo rank (fuel + 1) ((p, r) :: (q, rq) :: rest2) roots =
              popWhileGo rank fuel
                (({ q with children := q.children ++ [p] }, rq) :: rest2) roots from by
            simp only [popWhileGo]
            rw [if_pos hr]]
          refine (ih _ roots).trans ?_
          apply List.Perm.append_left
          simp only [stackFlat_cons, nodeFlat, flatIds_append, flatIds_cons, flatIds_nil,
            List.append_nil]
          refine Multiset.coe_eq_coe.mp ?_
          try simp only [← Multiset.cons_coe, ← Multiset.coe_add, ← Multiset.singleton_add]
          try rfl
          try abel
      · rw [show popWhileGo rank (fuel + 1) ((p, r) :: rest) roots =
            ((p, r) :: rest, roots) from by
          simp only [popWhileGo]
          try rw [if_neg hr]]
        try exact List.Perm.refl _

/-- Pops with an empty stack do nothing, whatever the fuel. -/
theorem popWhileGo_nil (rank : Nat) (fuel : Nat) (roots : List HNode) :
    popWhileGo rank fuel [] roots = ([], roots) := by
  cases fuel <;> rfl

/-- Popping at rank `0` empties the stack. -/
theorem popWhileGo_zero_stack :
    ∀ (fuel : Nat) (s : List (HNode × Nat)) (roots : List HNode), s.length < fuel →
    (popWhileGo 0 fuel s roots).1 = [] := by
  intro fuel
  induction fuel with
  | zero =>
    intro s roots h
    exact absurd h (Nat.not_lt_zero _)
  | succ fuel ih =>
    intro s roots h
    cases s with
    | nil => rw [popWhileGo_nil]
    | cons pr rest =>
      obtain ⟨p, r⟩ := pr
      cases rest with
      | nil =>
        rw [show popWhileGo 0 (fuel + 1) [(p, r)] roots =
            popWhileGo 0 fuel [] (roots ++ [p]) from by
          simp only [popWhileGo]
          rw [if_pos (Nat.zero_le r)]]
        rw [popWhileGo_nil]
      | cons qr rest2 =>
        obtain ⟨q, rq⟩ := qr
        rw [show popWhileGo 0 (fuel + 1) ((p, r) :: (q, rq) :: rest2) roots =
            popWhileGo 0 fuel
              (({ q with children := q.children ++ [p] }, rq) :: rest2) roots from by
          simp only [popWhileGo]
          rw [if_pos (Nat.zero_le r)]]
        apply ih
        simp only [List.length_cons] at h ⊢
        omega

/-- The main loop of `fix_hierarchy` over one sibling list permutes the
ids it is given (roots, stack and pending input) into its result. -/
theorem fhLoop_perm (rank : String → Nat) :
    ∀ (xs : List HNode) (stack : List (HNode × Nat)) (roots : List HNode),
    (flatIds (fhLoop rank xs stack roots)).Perm
      (flatIds roots ++ stackFlat stack ++ flatIds xs) := by
  intro xs
  induction xs with
  | nil =>
    intro stack roots
    simp only [fhLoop]
    have hp := popWhileGo_perm 0 (stack.length + 1) stack roots
    have hz := popWhileGo_zero_stack (stack.length + 1) stack roots (Nat.lt_succ_self _)
    unfold popWhile
    rw [hz, stackFlat_nil, List.append_nil] at hp
    refine hp.trans ?_
    rw [flatIds_nil, List.append_nil]
  | cons x xs ih =>
    intro stack roots
    rcases hsp : popWhile (rank (canonical_type x.typ)) stack roots with ⟨s1, r1⟩
    rw [show fhLoop rank (x :: xs) stack roots =
        fhLoop rank xs ((x, rank (canonical_type x.typ)) :: s1) r1 from by
      simp only [fhLoop]
      rw [hsp]]
    have hpp := popWhileGo_perm (rank (canonical_type x.typ)) (stack.length + 1) stack roots
    rw [show popWhileGo (rank (canonical_type x.typ)) (stack.length + 1) stack roots =
      (s1, r1) from hsp] at hpp
    refine (ih _ _).trans ?_
    rw [stackFlat_cons]
    have step2 : (flatIds r1 ++ (nodeFlat (x, rank (canonical_type x.typ)).1 ++ stackFlat s1) ++
        flatIds xs).Perm
        ((flatIds r1 ++ stackFlat s1) ++ (nodeFlat x ++ flatIds xs)) := by
      refine Multiset.coe_eq_coe.mp ?_
      try simp only [← Multiset.cons_coe, ← Multiset.coe_add, ← Multiset.singleton_add]
      try rfl
      try abel
    refine step2.trans ?_
    refine (List.Perm.append_right _ hpp).trans ?_
    rw [flatIds_cons]
    refine Multiset.coe_eq_coe.mp ?_
    try simp only [nodeFlat, ← Multiset.cons_coe, ← Multiset.coe_add, ← Multiset.singleton_add]
    try rfl
    try abel

/-- `fix_hierarchy_go` permutes the ids of its input forest. -/
theorem fix_hierarchy_go_perm :
    ∀ (fuel : Nat) (rank : String → Nat) (nodes : List HNode),
    (flatIds (fix_hierarchy_go fuel rank nodes)).Perm (flatIds nodes) := by
  intro fuel
  induction fuel with
  | zero =>
    intro rank nodes
    simp only [fix_hierarchy_go]
    exact List.Perm.refl _
  | succ fuel ih =>
    intro rank nodes
    simp only [fix_hierarchy_go]
    have hmap : ∀ (l : List HNode),
        (flatIds (l.map (fun n =>
          { n with children := fix_hierarchy_go fuel rank n.children }))).Perm (flatIds l) := by
      intro l
      induction l with
      | nil => exact List.Perm.refl _
      | cons a rest ihl =>
        rw [List.map_cons, flatIds_cons, flatIds_cons]
        exact List.Perm.cons _ (List.Perm.append (ih rank a.children) ihl)
    refine (hmap _).trans ?_
    refine (fhLoop_perm rank nodes [] []).trans ?_
    rw [flatIds_nil, stackFlat_nil, List.nil_append, List.nil_append]

/-- `fix_hierarchy` permutes the ids of its input forest. -/
theorem fix_hierarchy_perm (nodes : List HNode) :
    (flatIds (fix_hierarchy nodes)).Perm (flatIds nodes) :=
  fix_hierarchy_go_perm (sizeOf nodes) _ nodes

/-- On a forest whose reachable ids are pairwise distinct and avoid both
the active ancestor path and the already-seen set, the cycle-breaking walk
of `break_cycles` is the identity: it drops nothing, copies nothing, and
merely records the ids it visits. -/
theorem break_cycles_go_id :
    ∀ (fuel : Nat) (l : List HNode) (active seen : List Nat) (ctr : Nat),
    sizeOf l ≤ fuel → (flatIds l).Nodup →
    (∀ a ∈ flatIds l, a ∉ active) → (∀ a ∈ flatIds l, a ∉ seen) →
    break_cycles_go fuel l active seen ctr = (l, seen ++ flatIds l, ctr) := by
  intro fuel
  induction fuel with
  | zero =>
    intro l active seen ctr hsz
    cases l with
    | nil => simp at hsz
    | cons n rest => simp at hsz
  | succ fuel ih =>
    intro l active seen ctr hsz hnd hact hseen
    cases l with
    | nil =>
      simp only [break_cycles_go, flatIds_nil, List.append_nil]
    | cons n rest =>
      have hszc : sizeOf n.children ≤ fuel ∧ sizeOf rest ≤ fuel := by
        cases n with
        | mk i t num ti te ch => simp at hsz ⊢; omega
      rw [flatIds_cons] at hnd hact hseen
      have hn_act : n.nid ∉ active := hact n.nid (List.mem_cons_self _ _)
      have hn_seen : n.nid ∉ seen := hseen n.nid (List.mem_cons_self _ _)
      rw [List.nodup_cons, List.nodup_append] at hnd
      obtain ⟨hn_notin, hc_nd, hr_nd, hdisj⟩ := hnd
      have hcact : ∀ a ∈ flatIds n.children, a ∉ active ++ [n.nid] := by
        intro a ha
        rw [List.mem_append, List.mem_singleton]
        rintro (h1 | h2)
        · exact hact a (List.mem_cons_of_mem _ (List.mem_append_left _ ha)) h1
        · exact hn_notin (h2 ▸ List.mem_append_left _ ha)
      have hcseen : ∀ a ∈ flatIds n.children, a ∉ seen ++ [n.nid] := by
        intro a ha
        rw [List.mem_append, List.mem_singleton]
        rintro (h1 | h2)
        · exact hseen a (List.mem_cons_of_mem _ (List.mem_append_left _ ha)) h1
        · exact hn_notin (h2 ▸ List.mem_append_left _ ha)
      have hract : ∀ a ∈ flatIds rest, a ∉ active :=
        fun a ha => hact a (List.mem_cons_of_mem _ (List.mem_append_right _ ha))
      have hrseen : ∀ a ∈ flatIds rest, a ∉ (seen ++ [n.nid]) ++ flatIds n.children := by
        intro a ha
        rw [List.mem_append, List.mem_append, List.mem_singleton]
        rintro ((h1 | h2) | h3)
        · exact hseen a (List.mem_cons_of_mem _ (List.mem_append_right _ ha)) h1
        · exact hn_notin (h2 ▸ List.mem_append_right _ ha)
        · exact hdisj h3 ha
      have hcs := ih n.children (active ++ [n.nid]) (seen ++ [n.nid]) ctr hszc.1 hc_nd hcact hcseen
      have hrs := ih rest active ((seen ++ [n.nid]) ++ flatIds n.children) ctr hszc.2 hr_nd
        hract hrseen
      simp only [break_cycles_go]
      rw [if_neg hn_act]
      try dsimp only
      rw [if_neg hn_seen]
      try dsimp only
      try rw [if_neg hn_seen]
      rw [hcs]
      try dsimp only
      rw [hrs]
      try dsimp only
      cases n with
      | mk i t num ti te ch =>
        rw [flatIds_cons]
        simp

/-- `break_cycles` is the identity on a forest whose reachable ids are
pairwise distinct. -/
theorem break_cycles_id (nodes : List HNode) (hnd : (flatIds nodes).Nodup) :
    break_cycles nodes = nodes := by
  unfold break_cycles
  rw [break_cycles_go_id (sizeOf nodes) nodes [] [] _ (Nat.le_refl _) hnd
    (fun a _ => List.not_mem_nil a) (fun a _ => List.not_mem_nil a)]

/-- The ids of a member's subtree form a sublist of the forest's ids. -/
theorem nodeFlat_sublist_of_mem :
    ∀ {l : List HNode} {m : HNode}, m ∈ l → (nodeFlat m).Sublist (flatIds l) := by
  intro l
  induction l with
  | nil =>
    intro m h
    cases h
  | cons a rest ih =>
    intro m h
    rw [flatIds_cons]
    rcases List.mem_cons.mp h with h1 | h2
    · subst h1
      exact List.Sublist.cons₂ _ (List.sublist_append_left _ _)
    · exact List.Sublist.cons _ ((ih h2).trans (List.sublist_append_right _ _))

/-- The ids of any reachable node's subtree form a sublist of the forest's
ids. -/
theorem nodeFlat_sublist_of_inForest {l : List HNode} {n : HNode}
    (h : InForestH n l) : (nodeFlat n).Sublist (flatIds l) := by
  induction h with
  | here hmem => exact nodeFlat_sublist_of_mem hmem
  | child hmem _ ih =>
    refine ih.trans ?_
    refine List.Sublist.trans ?_ (nodeFlat_sublist_of_mem hmem)
    exact List.sublist_append_right [_] _

/-- In a forest whose reachable ids are pairwise distinct, no node has a
strict descendant bearing its own id. -/
theorem no_self_descendant {l : List HNode} (hnd : (flatIds l).Nodup) :
    ∀ n, InForestH n l → ∀ m, InForestH m n.children → m.nid ≠ n.nid := by
  intro n hn m hm
  have hsub := nodeFlat_sublist_of_inForest hn
  have hnd2 : (nodeFlat n).Nodup := List.Nodup.sublist hsub hnd
  have hmem : m.nid ∈ flatIds n.children :=
    (nodeFlat_sublist_of_inForest hm).subset (List.mem_cons_self _ _)
  rw [nodeFlat, List.nodup_cons] at hnd2
  intro he
  exact hnd2.1 (he ▸ hmem)

/-- A forest of childless nodes flattens to its list of ids. -/
theorem flatIds_of_childless :
    ∀ (l : List HNode), (∀ n ∈ l, n.children = []) → flatIds l = l.map HNode.nid := by
  intro l
  induction l with
  | nil => exact fun _ => flatIds_nil
  | cons a rest ih =>
    intro h
    rw [flatIds_cons, h a (List.mem_cons_self _ _), flatIds_nil, List.nil_append,
      List.map_cons, ih (fun n hn => h n (List.mem_cons_of_mem _ hn))]

/-- C3: for every flat input list of typed nodes with pairwise distinct
identities, and any permutation of it, the tree-repair pipeline
(`fix_hierarchy` followed by `break_cycles`) produces a forest in which no
node is its own descendant: following children links from a node never
reaches a node with the same identity. -/
theorem claim_C3 (input perm : List HNode)
    (hperm : perm.Perm input)
    (hflat : ∀ n ∈ input, n.children = [])
    (hnodup : (input.map HNode.nid).Nodup) :
    ∀ n, InForestH n (tree_repair_pipeline perm) →
      ∀ m, InForestH m n.children → m.nid ≠ n.nid := by
  have hflatp : ∀ n ∈ perm, n.children = [] := fun n hn => hflat n (hperm.subset hn)
  have hfp : flatIds perm = perm.map HNode.nid := flatIds_of_childless perm hflatp
  have hndp : (flatIds perm).Nodup := by
    rw [hfp]
    exact ((hperm.map HNode.nid).nodup_iff).mpr hnodup
  have hnd_fix : (flatIds (fix_hierarchy perm)).Nodup :=
    ((fix_hierarchy_perm perm).nodup_iff).mpr hndp
  have hpipe : tree_repair_pipeline perm = fix_hierarchy perm := by
    unfold tree_repair_pipeline
    exact break_cycles_id _ hnd_fix
  rw [hpipe]
  exact no_self_descendant hnd_fix

/-- Witness for C3 at a concrete flat list (a section and two articles)
and a nontrivial permutation of it. -/
theorem claim_C3_witness :
    (c3_perm.Perm c3_input ∧ (∀ n ∈ c3_input, n.children = []) ∧
      (c3_input.map HNode.nid).Nodup) ∧
    (∀ n, InForestH n (tree_repair_pipeline c3_perm) →
      ∀ m, InForestH m n.children → m.nid ≠ n.nid) := by
  have hp : c3_perm.Perm c3_input := by
    unfold c3_perm c3_input
    exact List.perm_append_singleton (⟨1, "قسم", "1", "", "", []⟩ : HNode)
      [⟨2, "مادة", "1", "", "", []⟩, ⟨3, "مادة", "2", "", "", []⟩]
  have hf : ∀ n ∈ c3_input, n.children = [] := by
    intro n hn
    unfold c3_input at hn
    rcases List.mem_cons.mp hn with h | hn2
    · subst h
      rfl
    rcases List.mem_cons.mp hn2 with h | hn3
    · subst h
      rfl
    rcases List.mem_cons.mp hn3 with h | hn4
    · subst h
      rfl
    · cases hn4
  have hn : (c3_input.map HNode.nid).Nodup := by decide
  exact ⟨⟨hp, hf, hn⟩, claim_C3 c3_input c3_perm hp hf hn⟩

/-- `zipStore` produces the ascending key list. -/
theorem zipStore_keys : ∀ (ns ts : List String) (next : Nat), ns.length = ts.length →
    (zipStore ns ts next).map Prod.fst = idRange next ns.length := by
  intro ns
  induction ns with
  | nil =>
    intro ts next h
    simp [zipStore, idRange]
  | cons n0 ns ih =>
    intro ts next h
    cases ts with
    | nil => simp at h
    | cons t0 ts =>
      simp only [zipStore, List.map_cons, List.length_cons, idRange]
      rw [ih ts (next + 1) (by simpa using h)]

/-- Reading the flat store at `next + i`. -/
theorem getM_zipStore : ∀ (ns ts : List String) (next i : Nat),
    ns.length = ts.length → i < ns.length →
    getM (zipStore ns ts next) (next + i) = flatM (ns.getD i "") (ts.getD i "") := by
  intro ns
  induction ns with
  | nil =>
    intro ts next i _ hi
    simp at hi
  | cons n0 ns ih =>
    intro ts next i h hi
    cases ts with
    | nil => simp at h
    | cons t0 ts =>
      cases i with
      | zero =>
        simp only [zipStore, getM, List.lookup, Nat.add_zero]
        rw [beq_self_eq_true next]
        rfl
      | succ i =>
        have hne : ((next + (i + 1) == next) = false) := by
          rw [beq_eq_false_iff_ne]
          omega
        simp only [zipStore, getM, List.lookup]
        rw [hne]
        have := ih ts (next + 1) i (by simpa using h) (by simpa using hi)
        simp only [getM] at this
        rw [show next + 1 + i = next + (i + 1) from by omega] at this
        rw [this]
        rfl

/-- Writing at a key below the store's id range is a no-op. -/
theorem setM_zipStore_miss : ∀ (ns ts : List String) (m i : Nat) (d : MData), i < m →
    setM (zipStore ns ts m) i d = zipStore ns ts m := by
  intro ns
  induction ns with
  | nil =>
    intro ts m i d _
    cases ts <;> rfl
  | cons n0 ns ih =>
    intro ts m i d hi
    cases ts with
    | nil => rfl
    | cons t0 ts =>
      simp only [zipStore, setM, List.map_cons]
      rw [if_neg (by omega : ¬(m = i))]
      have := ih ts (m + 1) i d (by omega)
      simp only [setM] at this
      rw [this]

/-- Writing a node record back into the flat store rewrites one text
slot. -/
theorem setM_zipStore : ∀ (ns ts : List String) (next k : Nat) (X : String),
    ns.length = ts.length → k < ns.length →
    setM (zipStore ns ts next) (next + k) (flatM (ns.getD k "") X) =
      zipStore ns (ts.set k X) next := by
  intro ns
  induction ns with
  | nil =>
    intro ts next k X _ hk
    simp at hk
  | cons n0 ns ih =>
    intro ts next k X h hk
    cases ts with
    | nil => simp at h
    | cons t0 ts =>
      cases k with
      | zero =>
        simp only [zipStore, setM, List.map_cons, Nat.add_zero, List.set, List.getD_cons_zero]
        rw [if_pos trivial]
        have := setM_zipStore_miss ns ts (next + 1) next (flatM n0 X) (Nat.lt_succ_self next)
        simp only [setM] at this
        rw [this]
      | succ k =>
        simp only [zipStore, setM, List.map_cons, List.set, List.getD_cons_succ]
        rw [if_neg (by omega : ¬(next = next + (k + 1)))]
        have := ih ts (next + 1) k X (by simpa using h) (by simpa using hk)
        simp only [setM] at this
        rw [show next + 1 + k = next + (k + 1) from by omega] at this
        rw [this]

/-- Loading an empty list allocates nothing, whatever the fuel. -/
theorem toStoreMGo_nil_any (fuel next : Nat) : toStoreMGo fuel [] next = ([], [], next) := by
  cases fuel <;> rfl

/-- A list of nodes is shorter than its `sizeOf`. -/
theorem length_lt_sizeOf : ∀ (l : List SNode), l.length < sizeOf l := by
  intro l
  induction l with
  | nil => simp
  | cons x xs ih =>
    have hx : 1 ≤ sizeOf x := by
      cases x
      simp
      try omega
    simp only [List.length_cons, List.cons.sizeOf_spec]
    omega

/-- Loading a flat childless article list yields the flat store, the id
range and the next free id. -/
theorem toStoreMGo_flat : ∀ (args : List (String × String)) (fuel next : Nat),
    args.length < fuel →
    toStoreMGo fuel (args.map mkFlatArt) next =
      (zipStore (args.map Prod.fst) (args.map Prod.snd) next, idRange next args.length,
        next + args.length) := by
  intro args
  induction args with
  | nil =>
    intro fuel next _
    rw [List.map_nil, toStoreMGo_nil_any]
    simp [zipStore, idRange]
  | cons p rest ih =>
    intro fuel next h
    cases fuel with
    | zero => omega
    | succ fuel =>
      simp only [List.map_cons, toStoreMGo, mkFlatArt, artNode]
      rw [toStoreMGo_nil_any]
      rw [ih fuel (next + 1) (by simp at h ⊢; omega)]
      simp only [List.map_cons, List.length_cons, zipStore, idRange, flatM, List.map_nil,
        List.nil_append]
      rw [show next + 1 + rest.length = next + (rest.length + 1) from by omega]
      simp

/-- Rebuilding a string from its characters is the identity. -/
theorem string_mk_data (s : String) : (⟨s.data⟩ : String) = s := by
  cases s
  rfl

/-- Setting a slot to its own value is the identity. -/
theorem set_getD_self : ∀ (ts : List String) (k : Nat), k < ts.length →
    ts.set k (ts.getD k "") = ts := by
  intro ts
  induction ts with
  | nil =>
    intro k h
    simp at h
  | cons t rest ih =>
    intro k h
    cases k with
    | zero => rfl
    | succ k =>
      simp only [List.set, List.getD_cons_succ]
      rw [ih k (by simpa using h)]

/-- The hierarchy-builder `canonical_type` fixes the canonical article
kind. -/
theorem canonical_type_hb_art : canonical_type_hb "مادة" = "مادة" := by decide

/-- The stripped number string of a flat-store node. -/
theorem mNumOf_zipStore (ns ts : List String) (i : Nat)
    (hlen : ns.length = ts.length) (hi : i < ns.length)
    (hstrip : stripList (ns.getD i "").data = (ns.getD i "").data) :
    mNumOf (zipStore ns ts 1) (1 + i) = ns.getD i "" := by
  unfold mNumOf
  rw [getM_zipStore ns ts 1 i hlen hi]
  show pyStrip (ns.getD i "") = ns.getD i ""
  unfold pyStrip
  rw [hstrip, string_mk_data]

/-- Length of the flat occurrence list. -/
theorem occList_length : ∀ (k base idx : Nat), (occList base k idx).length = k := by
  intro k
  induction k with
  | zero => intro base idx; rfl
  | succ k ih =>
    intro base idx
    simp only [occList, List.length_cons, ih]

/-- Indexing the flat occurrence list. -/
theorem occList_getElem? : ∀ (k base idx i : Nat), i < k →
    (occList base k idx)[i]? = some (⟨none, idx + i, base + i⟩ : MOcc) := by
  intro k
  induction k with
  | zero =>
    intro base idx i h
    omega
  | succ k ih =>
    intro base idx i h
    cases i with
    | zero =>
      simp only [occList, List.getElem?_cons_zero, Nat.add_zero]
    | succ i =>
      simp only [occList, List.getElem?_cons_succ]
      rw [ih (base + 1) (idx + 1) i (by omega)]
      have h1 : idx + 1 + i = idx + (i + 1) := by omega
      have h2 : base + 1 + i = base + (i + 1) := by omega
      rw [h1, h2]

/-- The walk of `remove_duplicate_articles` over a flat digit-numbered
article run collects one root occurrence per node, in order. -/
theorem walkMGo_flat (ns ts : List String) (hlen : ns.length = ts.length)
    (hdig : ∀ i < ns.length,
      pyIsDigit (ns.getD i "").data = true ∧ stripList (ns.getD i "").data = (ns.getD i "").data) :
    ∀ (k j idx fuel : Nat), j + k = ns.length → k < fuel →
    walkMGo fuel (zipStore ns ts 1) ((idRange (1 + j) k).map some) none idx =
      occList (1 + j) k idx := by
  intro k
  induction k with
  | zero =>
    intro j idx fuel _ hf
    cases fuel with
    | zero => omega
    | succ fuel => rfl
  | succ k ih =>
    intro j idx fuel hj hf
    cases fuel with
    | zero => omega
    | succ fuel =>
      have hjlt : j < ns.length := by omega
      have hget := getM_zipStore ns ts 1 j hlen hjlt
      have hnum := mNumOf_zipStore ns ts j hlen hjlt (hdig j hjlt).2
      simp only [idRange, List.map_cons, walkMGo]
      rw [hget, hnum]
      rw [if_neg (by
        rintro ⟨-, hnd⟩
        exact hnd (hdig j hjlt).1)]
      rw [if_pos (by exact canonical_type_hb_art)]
      rw [if_neg (by
        intro hne
        exact hne rfl)]
      rw [show (1 + j) + 1 = 1 + (j + 1) from by omega]
      rw [ih (j + 1) (idx + 1) fuel (by omega) (by omega)]
      simp only [occList, List.singleton_append, List.nil_append]
      rfl

/-- Keyed insertion permutes to a cons. -/
theorem insKeyed_perm {α : Type} (key : α → Nat) (x : α) :
    ∀ (l : List α), (insKeyed key x l).Perm (x :: l) := by
  intro l
  induction l with
  | nil => exact List.Perm.refl _
  | cons y rest ih =>
    simp only [insKeyed]
    by_cases h : key y ≤ key x
    · rw [if_pos h]
      exact (List.Perm.cons y ih).trans (List.Perm.swap x y rest)
    · rw [if_neg h]
      try exact List.Perm.refl _

/-- The stable keyed sort permutes its input. -/
theorem sortKeyed_perm {α : Type} (key : α → Nat) (l : List α) :
    (sortKeyed key l).Perm l := by
  have main : ∀ (l acc : List α),
      (l.foldl (fun acc x => insKeyed key x acc) acc).Perm (acc ++ l) := by
    intro l
    induction l with
    | nil =>
      intro acc
      rw [List.append_nil]
      exact List.Perm.refl _
    | cons x xs ih =>
      intro acc
      rw [List.foldl_cons]
      refine (ih (insKeyed key x acc)).trans ?_
      refine (List.Perm.append_right xs (insKeyed_perm key x acc)).trans ?_
      exact List.perm_middle.symm
  exact (main l []).trans (by rw [List.nil_append])

/-- The last element (with fallback) of a nonempty list is a member. -/
theorem getLastD_mem {α : Type} : ∀ (l : List α) (d : α), l ≠ [] → l.getLastD d ∈ l := by
  intro l
  induction l with
  | nil =>
    intro d h
    exact absurd rfl h
  | cons a t ih =>
    intro d _
    rw [List.getLastD_cons]
    cases ht : t with
    | nil => exact List.mem_cons_self _ _
    | cons b u =>
      rw [← ht]
      exact List.mem_cons_of_mem _ (ih a (by rw [ht]; intro hc; cases hc))

/-- `chooseGo` selects, for every listed number, exactly one of that
number's own occurrences. -/
theorem chooseGo_lookup :
    ∀ (pairs : List (String × List (Nat × MOcc))) (last : Int),
    (∀ pr ∈ pairs, pr.2 ≠ []) → (pairs.map Prod.fst).Nodup →
    ∀ num grp, (num, grp) ∈ pairs →
    ∃ sel, (chooseGo last pairs).lookup num = some sel ∧ sel ∈ grp := by
  intro pairs
  induction pairs with
  | nil =>
    intro last _ _ num grp hmem
    cases hmem
  | cons pr rest ih =>
    obtain ⟨num0, g0⟩ := pr
    intro last hne hnd num grp hmem
    have hg0 : g0 ≠ [] := hne (num0, g0) (List.mem_cons_self _ _)
    have hsortedne : sortKeyed (fun o => o.1) g0 ≠ [] := by
      intro hc
      apply hg0
      have := (sortKeyed_perm (fun o => o.1) g0).length_eq
      rw [hc] at this
      cases g0 with
      | nil => rfl
      | cons x xs => simp at this
    have hsel : (match (sortKeyed (fun o => o.1) g0).find? (fun o => last < (o.1 : Int)) with
        | some o => o
        | none => (sortKeyed (fun o => o.1) g0).getLastD default) ∈ g0 := by
      cases hf : (sortKeyed (fun o => o.1) g0).find? (fun o => last < (o.1 : Int)) with
      | some o =>
        exact (sortKeyed_perm (fun o => o.1) g0).mem_iff.mp (List.mem_of_find?_eq_some hf)
      | none =>
        exact (sortKeyed_perm (fun o => o.1) g0).mem_iff.mp
          (getLastD_mem _ _ hsortedne)
    simp only [chooseGo]
    by_cases hnum : num = num0
    · subst hnum
      have hgrp : grp = g0 := by
        rcases List.mem_cons.mp hmem with h1 | h2
        · exact (Prod.mk.injEq _ _ _ _ ▸ h1).2
        · exfalso
          rw [List.map_cons, List.nodup_cons] at hnd
          exact hnd.1 (List.mem_map.mpr ⟨(num, grp), h2, rfl⟩)
      subst hgrp
      refine ⟨_, ?_, hsel⟩
      rw [List.lookup]
      rw [beq_self_eq_true num]
    · have hrest : (num, grp) ∈ rest := by
        rcases List.mem_cons.mp hmem with h1 | h2
        · exact absurd (Prod.mk.injEq _ _ _ _ ▸ h1).1 hnum
        · exact h2
      obtain ⟨sel, hlook, hselg⟩ := ih _ (fun pr hpr => hne pr (List.mem_cons_of_mem _ hpr))
        (by rw [List.map_cons, List.nodup_cons] at hnd; exact hnd.2) num grp hrest
      refine ⟨sel, ?_, hselg⟩
      rw [List.lookup]
      rw [beq_eq_false_iff_ne.mpr hnum]
      exact hlook

/-- The accumulator survives the insertion-order fold. -/
theorem numInsertionOrder_sub (st : List (Nat × MData)) :
    ∀ (occs : List MOcc) (acc : List String) (x : String), x ∈ acc →
    x ∈ occs.foldl (fun acc o =>
      let n := mNumOf st o.nid
      if n ∈ acc then acc else acc ++ [n]) acc := by
  intro occs
  induction occs with
  | nil => exact fun acc x hx => hx
  | cons o rest ih =>
    intro acc x hx
    rw [List.foldl_cons]
    apply ih
    dsimp only
    split
    · exact hx
    · exact List.mem_append_left _ hx

/-- Every occurrence's number appears in the insertion order. -/
theorem numInsertionOrder_mem (st : List (Nat × MData)) :
    ∀ (occs : List MOcc) (acc : List String) (o : MOcc), o ∈ occs →
    mNumOf st o.nid ∈ occs.foldl (fun acc o =>
      let n := mNumOf st o.nid
      if n ∈ acc then acc else acc ++ [n]) acc := by
  intro occs
  induction occs with
  | nil =>
    intro acc o ho
    cases ho
  | cons o0 rest ih =>
    intro acc o ho
    rw [List.foldl_cons]
    rcases List.mem_cons.mp ho with h1 | h2
    · subst h1
      apply numInsertionOrder_sub
      dsimp only
      split
      next hin => exact hin
      next => exact List.mem_append_right _ (List.mem_singleton.mpr rfl)
    · exact ih _ o h2

/-- The insertion order is duplicate-free. -/
theorem numInsertionOrder_nodup (st : List (Nat × MData)) :
    ∀ (occs : List MOcc) (acc : List String), acc.Nodup →
    (occs.foldl (fun acc o =>
      let n := mNumOf st o.nid
      if n ∈ acc then acc else acc ++ [n]) acc).Nodup := by
  intro occs
  induction occs with
  | nil => exact fun acc h => h
  | cons o rest ih =>
    intro acc h
    rw [List.foldl_cons]
    apply ih
    dsimp only
    split
    · exact h
    next hnin =>
      rw [List.nodup_append]
      exact ⟨h, List.nodup_singleton _, by
        intro a ha hb
        rw [List.mem_singleton] at hb
        exact hnin (hb ▸ ha)⟩

/-- Everything in the insertion order is some occurrence's number. -/
theorem numInsertionOrder_src (st : List (Nat × MData)) :
    ∀ (occs : List MOcc) (acc : List String) (x : String),
    x ∈ occs.foldl (fun acc o =>
      let n := mNumOf st o.nid
      if n ∈ acc then acc else acc ++ [n]) acc →
    x ∈ acc ∨ ∃ o ∈ occs, mNumOf st o.nid = x := by
  intro occs
  induction occs with
  | nil => exact fun acc x hx => Or.inl hx
  | cons o rest ih =>
    intro acc x hx
    rw [List.foldl_cons] at hx
    rcases ih _ x hx with h1 | ⟨o2, ho2, he⟩
    · dsimp only at h1
      rcases (by
        by_cases hc : mNumOf st o.nid ∈ acc
        · rw [if_pos hc] at h1
          exact Or.inl h1
        · rw [if_neg hc] at h1
          rcases List.mem_append.mp h1 with ha | hb
          · exact Or.inl ha
          · exact Or.inr (List.mem_singleton.mp hb) :
        x ∈ acc ∨ x = mNumOf st o.nid) with ha | hb
      · exact Or.inl ha
      · exact Or.inr ⟨o, List.mem_cons_self _ _, hb.symm⟩
    · exact Or.inr ⟨o2, List.mem_cons_of_mem _ ho2, he⟩

/-- Field laws of the flat node record. -/
theorem flatM_text (a b : String) : (flatM a b).text = b := rfl

/-- Children of a flat node record. -/
theorem flatM_children (a b : String) : (flatM a b).children = [] := rfl

/-- Updating the text of a flat node record. -/
theorem flatM_update_text (a b c : String) : { flatM a b with text := c } = flatM a c := rfl

/-- Updating the children of a flat node record with an empty list. -/
theorem flatM_update_children_nil (a b : String) :
    { flatM a b with children := ([] : List (Option Nat)) } = flatM a b := rfl

/-- Reading a freshly set slot. -/
theorem getD_set_eq : ∀ (ts : List String) (k : Nat) (x : String), k < ts.length →
    (ts.set k x).getD k "" = x := by
  intro ts
  induction ts with
  | nil =>
    intro k x h
    simp at h
  | cons t rest ih =>
    intro k x h
    cases k with
    | zero => rfl
    | succ k => exact ih k x (by simpa using h)

/-- Reading an untouched slot. -/
theorem getD_set_ne : ∀ (ts : List String) (j k : Nat) (x : String), j ≠ k →
    (ts.set k x).getD j "" = ts.getD j "" := by
  intro ts
  induction ts with
  | nil =>
    intro j k x _
    rfl
  | cons t rest ih =>
    intro j k x h
    cases k with
    | zero =>
      cases j with
      | zero => exact absurd rfl h
      | succ j => rfl
    | succ k =>
      cases j with
      | zero => rfl
      | succ j => exact ih j k x (by omega)

/-- One flat merge step: the kept node's text becomes the longer of the two
texts, the occurrence's root slot is blanked, and nothing else changes. -/
theorem mergeOcc_flat (ns ts : List String) (hlen : ns.length = ts.length)
    (root : List (Option Nat)) (i k : Nat) (hi : i < ns.length) (hk : k < ns.length) :
    ∃ T, (T = ts.getD i "" ∨ T = ts.getD k "") ∧
      (ts.getD i "").length ≤ T.length ∧ (ts.getD k "").length ≤ T.length ∧
      mergeOcc (1 + k) (zipStore ns ts 1) root ⟨none, i, 1 + i⟩ =
        (zipStore ns (ts.set k T) 1, root.set i none) := by
  have hlen2 : ns.length = (ts.set k (ts.getD i "")).length := by
    rw [List.length_set]
    exact hlen
  by_cases hlt : (ts.getD k "").length < (ts.getD i "").length
  · refine ⟨ts.getD i "", Or.inl rfl, Nat.le_refl _, Nat.le_of_lt hlt, ?_⟩
    unfold mergeOcc blankSlot
    dsimp only
    rw [getM_zipStore ns ts 1 i hlen hi, getM_zipStore ns ts 1 k hlen hk]
    simp only [flatM_text]
    rw [if_pos hlt]
    rw [flatM_update_text]
    rw [setM_zipStore ns ts 1 k (ts.getD i "") hlen hk]
    rw [getM_zipStore ns (ts.set k (ts.getD i "")) 1 k hlen2 hk]
    rw [getM_zipStore ns (ts.set k (ts.getD i "")) 1 i hlen2 hi]
    rw [getD_set_eq ts k (ts.getD i "") (hlen ▸ hk)]
    simp only [flatM_children, List.append_nil, flatM_update_children_nil]
    rw [setM_zipStore ns (ts.set k (ts.getD i "")) 1 k (ts.getD i "") hlen2 hk]
    rw [List.set_set]
  · refine ⟨ts.getD k "", Or.inr rfl, by omega, Nat.le_refl _, ?_⟩
    unfold mergeOcc blankSlot
    dsimp only
    rw [getM_zipStore ns ts 1 i hlen hi, getM_zipStore ns ts 1 k hlen hk]
    simp only [flatM_text]
    rw [if_neg hlt]
    rw [getM_zipStore ns ts 1 k hlen hk]
    rw [getM_zipStore ns ts 1 i hlen hi]
    simp only [flatM_children, List.append_nil, flatM_update_children_nil]
    rw [setM_zipStore ns ts 1 k (ts.getD k "") hlen hk]

/-- The blanking relation (`each slot is preserved or tombstoned`) is
reflexive. -/
theorem blankRel_refl (root : List (Option Nat)) :
    List.Forall₂ (fun a b => b = a ∨ b = none) root root :=
  List.forall₂_same.mpr (fun _ _ => Or.inl rfl)

/-- The blanking relation composes. -/
theorem blankRel_trans : ∀ {r1 r2 r3 : List (Option Nat)},
    List.Forall₂ (fun a b => b = a ∨ b = none) r1 r2 →
    List.Forall₂ (fun a b => b = a ∨ b = none) r2 r3 →
    List.Forall₂ (fun a b => b = a ∨ b = none) r1 r3 := by
  intro r1 r2 r3 h12 h23
  induction h12 generalizing r3 with
  | nil =>
    cases h23
    exact List.Forall₂.nil
  | cons hab htail ih =>
    cases h23 with
    | cons hbc htail2 =>
      refine List.Forall₂.cons ?_ (ih htail2)
      rcases hbc with hc1 | hc2
      · rw [hc1]
        exact hab
      · exact Or.inr hc2

/-- Tombstoning one slot respects the blanking relation. -/
theorem blankRel_set (root : List (Option Nat)) (i : Nat) :
    List.Forall₂ (fun a b => b = a ∨ b = none) root (root.set i none) := by
  induction root generalizing i with
  | nil => exact List.Forall₂.nil
  | cons a rest ih =>
    cases i with
    | zero => exact List.Forall₂.cons (Or.inr rfl) (blankRel_refl rest)
    | succ i => exact List.Forall₂.cons (Or.inl rfl) (ih i)

/-- Pointwise reading through the blanking relation. -/
theorem blankRel_get : ∀ {r1 r2 : List (Option Nat)},
    List.Forall₂ (fun a b => b = a ∨ b = none) r1 r2 →
    ∀ (i : Nat) (x : Option Nat), r1[i]? = some x → ∃ y, r2[i]? = some y ∧ (y = x ∨ y = none) := by
  intro r1 r2 h
  induction h with
  | nil =>
    intro i x hx
    simp at hx
  | cons hab htail ih =>
    intro i x hx
    cases i with
    | zero =>
      rw [List.getElem?_cons_zero] at hx ⊢
      injection hx with hx
      exact ⟨_, rfl, hx ▸ hab⟩
    | succ i =>
      rw [List.getElem?_cons_succ] at hx ⊢
      exact ih i x hx

/-- The blanking relation preserves length. -/
theorem blankRel_length {r1 r2 : List (Option Nat)}
    (h : List.Forall₂ (fun a b => b = a ∨ b = none) r1 r2) : r1.length = r2.length :=
  List.Forall₂.length_eq h

/-- The flat merge loop over one number's occurrences: the kept node's text
ends at least as long as every merged occurrence's text (and never
shrinks), every non-kept occurrence's root slot is tombstoned, and no other
slot changes. -/
theorem mergeNum_flat (ns : List String) (keepOrder k : Nat) (hk : k < ns.length) :
    ∀ (grp : List (Nat × MOcc)) (ts : List String) (root : List (Option Nat)),
    ns.length = ts.length →
    (∀ pr ∈ grp, ∃ i, i < ns.length ∧ pr.2 = (⟨none, i, 1 + i⟩ : MOcc)) →
    ∃ ts' root',
      mergeNum keepOrder (1 + k) (zipStore ns ts 1) root grp = (zipStore ns ts' 1, root') ∧
      ns.length = ts'.length ∧
      (∀ j, j < ns.length → (ts.getD j "").length ≤ (ts'.getD j "").length) ∧
      (∀ pr ∈ grp, pr.1 ≠ keepOrder →
        (ts.getD (pr.2.nid - 1) "").length ≤ (ts'.getD k "").length) ∧
      List.Forall₂ (fun a b => b = a ∨ b = none) root root' ∧
      (∀ pr ∈ grp, pr.1 ≠ keepOrder → pr.2.idx < root.length → root'[pr.2.idx]? = some none) ∧
      (∀ pos, (∀ pr ∈ grp, pr.1 = keepOrder ∨ pr.2.idx ≠ pos) → root'[pos]? = root[pos]?) := by
  intro grp
  induction grp with
  | nil =>
    intro ts root hlen _
    exact ⟨ts, root, rfl, hlen, fun j _ => Nat.le_refl _, fun pr hpr => absurd hpr (by
      intro h
      cases h), blankRel_refl root, fun pr hpr => absurd hpr (by
      intro h
      cases h), fun pos _ => rfl⟩
  | cons pr0 rest ih =>
    obtain ⟨ord, o⟩ := pr0
    intro ts root hlen hwf
    obtain ⟨i, hi, hoeq⟩ := hwf (ord, o) (List.mem_cons_self _ _)
    simp only [mergeNum]
    by_cases ho : ord = keepOrder
    · rw [if_pos ho]
      obtain ⟨ts', root', hmeq, hlen', hmono, hbound, hf2, hblank, hun⟩ :=
        ih ts root hlen (fun pr hpr => hwf pr (List.mem_cons_of_mem _ hpr))
      refine ⟨ts', root', hmeq, hlen', hmono, ?_, hf2, ?_, ?_⟩
      · intro pr hpr hne
        rcases List.mem_cons.mp hpr with h1 | h2
        · rw [h1] at hne
          exact absurd ho hne
        · exact hbound pr h2 hne
      · intro pr hpr hne hlt
        rcases List.mem_cons.mp hpr with h1 | h2
        · exact absurd (h1 ▸ ho : pr.1 = keepOrder) hne
        · exact hblank pr h2 hne hlt
      · intro pos hpos
        exact hun pos (fun pr hpr => hpos pr (List.mem_cons_of_mem _ hpr))
    · rw [if_neg ho]
      dsimp only at hoeq
      rw [hoeq]
      obtain ⟨T, hTor, hTi, hTk, heq⟩ := mergeOcc_flat ns ts hlen root i k hi hk
      rw [heq]
      have hlen1 : ns.length = (ts.set k T).length := by
        rw [List.length_set]
        exact hlen
      obtain ⟨ts', root', hmeq, hlen', hmono, hbound, hf2, hblank, hun⟩ :=
        ih (ts.set k T) (root.set i none) hlen1
          (fun pr hpr => hwf pr (List.mem_cons_of_mem _ hpr))
      have hmono0 : ∀ j, j < ns.length →
          (ts.getD j "").length ≤ ((ts.set k T).getD j "").length := by
        intro j hj
        by_cases hjk : j = k
        · subst hjk
          rw [getD_set_eq ts j T (hlen ▸ hj)]
          exact hTk
        · rw [getD_set_ne ts j k T hjk]
      refine ⟨ts', root', hmeq, hlen', ?_, ?_, ?_, ?_, ?_⟩
      · intro j hj
        exact Nat.le_trans (hmono0 j hj) (hmono j hj)
      · intro pr hpr hne
        rcases List.mem_cons.mp hpr with h1 | h2
        · rw [h1]
          dsimp only
          rw [show 1 + i - 1 = i from by omega]
          refine Nat.le_trans hTi ?_
          refine Nat.le_trans (Nat.le_of_eq ?_) (hmono k hk)
          rw [getD_set_eq ts k T (hlen ▸ hk)]
        · refine Nat.le_trans ?_ (hbound pr h2 hne)
          by_cases hjk : pr.2.nid - 1 = k
          · rw [hjk, getD_set_eq ts k T (hlen ▸ hk)]
            exact hTk
          · rw [getD_set_ne ts (pr.2.nid - 1) k T hjk]
      · exact blankRel_trans (blankRel_set root i) hf2
      · intro pr hpr hne hlt
        rcases List.mem_cons.mp hpr with h1 | h2
        · have hidx : pr.2.idx = i := by
            rw [h1]
          have hset : (root.set i none)[i]? = some none :=
            List.getElem?_set_self (by rw [← hidx]; exact hlt)
          obtain ⟨y, hy, hyor⟩ := blankRel_get hf2 i none hset
          rw [hidx]
          rcases hyor with h | h <;> rw [hy, h]
        · refine hblank pr h2 hne ?_
          rw [List.length_set]
          exact hlt
      · intro pos hpos
        have h0 : (root.set i none)[pos]? = root[pos]? := by
          rcases hpos (ord, (⟨none, i, 1 + i⟩ : MOcc)) (List.mem_cons_self _ _) with h | h
          · exact absurd h ho
          · dsimp only at h
            exact List.getElem?_set_ne h
        rw [hun pos (fun pr hpr => hpos pr (List.mem_cons_of_mem _ hpr)), h0]

/-- The flat merge loop over all numbers: per number, the selected keeper's
text ends at least as long as every occurrence's text of that number, every
non-selected occurrence's root slot is tombstoned, and slots of selected
occurrences are untouched. -/
theorem mergeAll_flat (ns : List String) (chosen : List (String × (Nat × MOcc))) :
    ∀ (entries : List (String × List (Nat × MOcc))) (ts : List String)
      (root : List (Option Nat)),
    ns.length = ts.length →
    (∀ e ∈ entries, ∀ pr ∈ e.2, ∃ i, i < ns.length ∧
      pr = ((i, ⟨none, i, 1 + i⟩) : Nat × MOcc)) →
    (∀ e ∈ entries, ∃ sel, chosen.lookup e.1 = some sel ∧ sel ∈ e.2) →
    ∃ ts' root',
      mergeAll chosen (zipStore ns ts 1) root entries = (zipStore ns ts' 1, root') ∧
      ns.length = ts'.length ∧
      (∀ j, j < ns.length → (ts.getD j "").length ≤ (ts'.getD j "").length) ∧
      (∀ e ∈ entries, ∀ sel, chosen.lookup e.1 = some sel →
        ∀ pr ∈ e.2, (ts.getD (pr.2.nid - 1) "").length ≤ (ts'.getD sel.1 "").length) ∧
      List.Forall₂ (fun a b => b = a ∨ b = none) root root' ∧
      (∀ e ∈ entries, ∀ sel, chosen.lookup e.1 = some sel →
        ∀ pr ∈ e.2, pr.1 ≠ sel.1 → pr.2.idx < root.length → root'[pr.2.idx]? = some none) ∧
      (∀ pos, (∀ e ∈ entries, ∀ pr ∈ e.2,
          (∀ sel, chosen.lookup e.1 = some sel → pr.1 = sel.1) ∨ pr.2.idx ≠ pos) →
        root'[pos]? = root[pos]?) := by
  intro entries
  induction entries with
  | nil =>
    intro ts root hlen _ _
    refine ⟨ts, root, rfl, hlen, fun j _ => Nat.le_refl _, ?_, blankRel_refl root, ?_, ?_⟩
    · intro e he
      cases he
    · intro e he
      cases he
    · intro pos _
      rfl
  | cons e0 rest ih =>
    obtain ⟨num, grp⟩ := e0
    intro ts root hlen hwf hsel
    obtain ⟨sel, hlook, hselmem⟩ := hsel (num, grp) (List.mem_cons_self _ _)
    obtain ⟨isel, hisel, hseleq⟩ := hwf (num, grp) (List.mem_cons_self _ _) sel hselmem
    simp only [mergeAll]
    rw [hlook]
    rw [hseleq]
    simp only [Option.getD_some]
    try dsimp only
    have hwfgrp : ∀ pr ∈ grp, ∃ i, i < ns.length ∧ pr.2 = (⟨none, i, 1 + i⟩ : MOcc) := by
      intro pr hpr
      obtain ⟨i, hilt, heq⟩ := hwf (num, grp) (List.mem_cons_self _ _) pr hpr
      exact ⟨i, hilt, by rw [heq]⟩
    obtain ⟨ts1, root1, hm1, hlen1, hmono1, hbound1, hf21, hblank1, hun1⟩ :=
      mergeNum_flat ns isel isel hisel grp ts root hlen hwfgrp
    rw [hm1]
    dsimp only
    obtain ⟨ts', root', hm2, hlen2, hmono2, hbound2, hf22, hblank2, hun2⟩ :=
      ih ts1 root1 hlen1 (fun e he => hwf e (List.mem_cons_of_mem _ he))
        (fun e he => hsel e (List.mem_cons_of_mem _ he))
    refine ⟨ts', root', hm2, hlen2, ?_, ?_, blankRel_trans hf21 hf22, ?_, ?_⟩
    · intro j hj
      exact Nat.le_trans (hmono1 j hj) (hmono2 j hj)
    · intro e he sel2 hlook2 pr hpr
      rcases List.mem_cons.mp he with h1 | h2
      · have hnum : e.1 = num := by rw [h1]
        rw [hnum] at hlook2
        rw [hlook] at hlook2
        injection hlook2 with hsel2
        subst hsel2
        rw [hseleq]
        dsimp only
        have hgrp : pr ∈ grp := by
          rw [h1] at hpr
          exact hpr
        obtain ⟨i, hilt, hpreq⟩ := hwfgrp pr hgrp
        have hnidlt : pr.2.nid - 1 < ns.length := by
          rw [hpreq]
          dsimp only
          omega
        by_cases hko : pr.1 = isel
        · obtain ⟨i2, hi2, hpr2⟩ := hwf (num, grp) (List.mem_cons_self _ _) pr hgrp
          have : pr.2.nid - 1 = isel := by
            rw [hpr2]
            dsimp only
            rw [hpr2] at hko
            dsimp only at hko
            omega
          rw [this]
          exact Nat.le_trans (hmono1 isel hisel) (hmono2 isel hisel)
        · refine Nat.le_trans (hbound1 pr hgrp hko) ?_
          exact hmono2 isel hisel
      · obtain ⟨i, hilt, hpreq⟩ := hwf e (List.mem_cons_of_mem _ h2) pr hpr
        have hnidlt : pr.2.nid - 1 < ns.length := by
          rw [hpreq]
          dsimp only
          omega
        refine Nat.le_trans (hmono1 _ hnidlt) ?_
        exact hbound2 e h2 sel2 hlook2 pr hpr
    · intro e he sel2 hlook2 pr hpr hne hlt
      rcases List.mem_cons.mp he with h1 | h2
      · have hnum : e.1 = num := by rw [h1]
        rw [hnum, hlook] at hlook2
        injection hlook2 with hsel2
        subst hsel2
        rw [hseleq] at hne
        dsimp only at hne
        have hgrp : pr ∈ grp := by
          rw [h1] at hpr
          exact hpr
        have hb1 := hblank1 pr hgrp hne hlt
        obtain ⟨y, hy, hyor⟩ := blankRel_get hf22 pr.2.idx none hb1
        rcases hyor with h | h <;> rw [hy, h]
      · refine hblank2 e h2 sel2 hlook2 pr hpr hne ?_
        rw [← blankRel_length hf21]
        exact hlt
    · intro pos hpos
      have h0 : root1[pos]? = root[pos]? := by
        refine hun1 pos ?_
        intro pr hpr
        rcases hpos (num, grp) (List.mem_cons_self _ _) pr hpr with h | h
        · left
          have := h sel hlook
          rw [hseleq] at this
          dsimp only at this
          exact this
        · right
          exact h
      rw [hun2 pos (fun e he pr hpr => hpos e (List.mem_cons_of_mem _ he) pr hpr), h0]

/-- `idRange` membership. -/
theorem mem_idRange : ∀ (k base x : Nat), x ∈ idRange base k ↔ base ≤ x ∧ x < base + k := by
  intro k
  induction k with
  | zero =>
    intro base x
    simp [idRange]
    try omega
  | succ k ih =>
    intro base x
    simp only [idRange, List.mem_cons, ih (base + 1) x]
    omega

/-- `idRange` yields pairwise distinct ids. -/
theorem idRange_nodup : ∀ (k base : Nat), (idRange base k).Nodup := by
  intro k
  induction k with
  | zero => intro base; exact List.nodup_nil
  | succ k ih =>
    intro base
    rw [idRange, List.nodup_cons]
    refine ⟨?_, ih (base + 1)⟩
    rw [mem_idRange]
    omega

/-- `idRange` length. -/
theorem idRange_length : ∀ (k base : Nat), (idRange base k).length = k := by
  intro k
  induction k with
  | zero => intro base; rfl
  | succ k ih =>
    intro base
    simp only [idRange, List.length_cons, ih (base + 1)]

/-- Indexing `idRange`. -/
theorem idRange_getElem? : ∀ (k base i : Nat), i < k → (idRange base k)[i]? = some (base + i) := by
  intro k
  induction k with
  | zero =>
    intro base i h
    omega
  | succ k ih =>
    intro base i h
    cases i with
    | zero => simp [idRange]
    | succ i =>
      simp only [idRange, List.getElem?_cons_succ]
      rw [ih (base + 1) i (by omega)]
      congr 1
      omega

/-- Tombstoning only removes entries from the compacted slot list. -/
theorem blankRel_filterMap : ∀ {r1 r2 : List (Option Nat)},
    List.Forall₂ (fun a b => b = a ∨ b = none) r1 r2 →
    (r2.filterMap id).Sublist (r1.filterMap id) := by
  intro r1 r2 h
  induction h with
  | nil => exact List.Sublist.refl _
  | @cons a b l1 l2 hab htail ih =>
    rcases hab with h1 | h1 <;> rw [h1]
    · cases a with
      | none =>
        simp only [List.filterMap_cons, id]
        exact ih
      | some x =>
        simp only [List.filterMap_cons, id]
        exact List.Sublist.cons₂ x ih
    · cases a with
      | none =>
        simp only [List.filterMap_cons, id]
        exact ih
      | some x =>
        simp only [List.filterMap_cons, id]
        exact List.Sublist.cons x ih

/-- The cleanup sweep over a flat store drops tombstones and leaves the
store unchanged. -/
theorem cleanupGo_flat (ns ts : List String) (hlen : ns.length = ts.length) :
    ∀ (slots : List (Option Nat)) (fuel : Nat), slots.length < fuel →
    (∀ nid, some nid ∈ slots → ∃ k, k < ns.length ∧ nid = 1 + k) →
    cleanupGo fuel (zipStore ns ts 1) slots = (zipStore ns ts 1, slots.filterMap id) := by
  intro slots
  induction slots with
  | nil =>
    intro fuel hf _
    cases fuel with
    | zero => omega
    | succ fuel => rfl
  | cons slot rest ih =>
    intro fuel hf hids
    cases fuel with
    | zero => omega
    | succ fuel =>
      cases slot with
      | none =>
        simp only [cleanupGo]
        rw [ih fuel (by simp at hf ⊢; omega)
          (fun nid hnid => hids nid (List.mem_cons_of_mem _ hnid))]
        simp only [List.filterMap_cons, id]
      | some nid =>
        obtain ⟨k, hk, hnid⟩ := hids nid (List.mem_cons_self _ _)
        subst hnid
        simp only [cleanupGo]
        rw [getM_zipStore ns ts 1 k hlen hk]
        rw [if_pos (flatM_children _ _)]
        try dsimp only
        rw [getM_zipStore ns ts 1 k hlen hk]
        rw [show ((List.map some ([] : List Nat))) = ([] : List (Option Nat)) from rfl]
        rw [flatM_update_children_nil]
        rw [setM_zipStore ns ts 1 k (ts.getD k "") hlen hk]
        rw [set_getD_self ts k (hlen ▸ hk)]
        rw [ih fuel (by simp at hf ⊢; omega)
          (fun nid2 hnid2 => hids nid2 (List.mem_cons_of_mem _ hnid2))]
        simp only [List.filterMap_cons, id]

/-- Reading whatever ids survive out of a flat store. -/
theorem ofStoreMGo_flat (ns ts : List String) (hlen : ns.length = ts.length) :
    ∀ (ids : List Nat) (fuel : Nat), ids.length < fuel →
    (∀ nid ∈ ids, ∃ k, k < ns.length ∧ nid = 1 + k) →
    ofStoreMGo fuel (zipStore ns ts 1) ids =
      ids.map (fun nid =>
        ⟨"مادة", NumV.str (ns.getD (nid - 1) ""), "", ts.getD (nid - 1) "", [], false⟩) := by
  intro ids
  induction ids with
  | nil =>
    intro fuel hf _
    cases fuel with
    | zero => omega
    | succ fuel => rfl
  | cons nid rest ih =>
    intro fuel hf hids
    cases fuel with
    | zero => omega
    | succ fuel =>
      obtain ⟨k, hk, hnid⟩ := hids nid (List.mem_cons_self _ _)
      subst hnid
      simp only [ofStoreMGo]
      rw [getM_zipStore ns ts 1 k hlen hk]
      rw [show (flatM (ns.getD k "") (ts.getD k "")).children.filterMap id = ([] : List Nat)
        from rfl]
      rw [show ∀ (st : List (Nat × MData)), ofStoreMGo fuel st [] = [] from by
        intro st
        cases fuel <;> rfl]
      rw [ih fuel (by simp at hf ⊢; omega)
        (fun nid2 hnid2 => hids nid2 (List.mem_cons_of_mem _ hnid2))]
      rw [List.map_cons]
      rw [show (1 + k - 1 : Nat) = k from by omega]
      rfl

/-- Reading through the blanking relation, from the blanked side. -/
theorem blankRel_get2 : ∀ {r1 r2 : List (Option Nat)},
    List.Forall₂ (fun a b => b = a ∨ b = none) r1 r2 →
    ∀ (i : Nat) (y : Option Nat), r2[i]? = some y → ∃ x, r1[i]? = some x ∧ (y = x ∨ y = none) := by
  intro r1 r2 h
  induction h with
  | nil =>
    intro i y hy
    simp at hy
  | cons hab htail ih =>
    intro i y hy
    cases i with
    | zero =>
      rw [List.getElem?_cons_zero] at hy ⊢
      injection hy with hy
      exact ⟨_, rfl, hy ▸ hab⟩
    | succ i =>
      rw [List.getElem?_cons_succ] at hy ⊢
      exact ih i y hy

/-- Compacting a fully live slot list recovers the ids. -/
theorem filterMap_id_map_some (l : List Nat) : (l.map some).filterMap id = l := by
  induction l with
  | nil => rfl
  | cons x rest ih =>
    simp only [List.map_cons, List.filterMap_cons, id]
    rw [ih]

/-- Inverting an index into the flat occurrence list. -/
theorem occList_getElem?_inv (n i : Nat) (o : MOcc)
    (h : (occList 1 n 0)[i]? = some o) : i < n ∧ o = ⟨none, i, 1 + i⟩ := by
  by_cases hi : i < n
  · rw [occList_getElem? n 1 0 i hi] at h
    injection h with h
    refine ⟨hi, ?_⟩
    rw [← h]
    congr 1
    omega
  · rw [List.getElem?_eq_none (by rw [occList_length]; omega)] at h
    cases h

/-- Membership in the flat occurrence list. -/
theorem mem_occList (n : Nat) (o : MOcc) (h : o ∈ occList 1 n 0) :
    ∃ i, i < n ∧ o = ⟨none, i, 1 + i⟩ := by
  obtain ⟨i, hi⟩ := List.mem_iff_getElem?.mp h
  obtain ⟨h1, h2⟩ := occList_getElem?_inv n i o hi
  exact ⟨i, h1, h2⟩

/-- Index, number and text of a listed `(number, text)` pair. -/
theorem args_index : ∀ (args : List (String × String)) (p : String × String), p ∈ args →
    ∃ i, i < args.length ∧ (args.map Prod.fst).getD i "" = p.1 ∧
      (args.map Prod.snd).getD i "" = p.2 := by
  intro args
  induction args with
  | nil =>
    intro p hp
    cases hp
  | cons q rest ih =>
    intro p hp
    rcases List.mem_cons.mp hp with h1 | h2
    · subst h1
      exact ⟨0, by simp, rfl, rfl⟩
    · obtain ⟨i, hi, h3, h4⟩ := ih p h2
      exact ⟨i + 1, by simp; omega, h3, h4⟩

/-- The digit hypotheses, transported to indexed reads. -/
theorem args_digits : ∀ (args : List (String × String)),
    (∀ p ∈ args, pyIsDigit p.1.data = true ∧ stripList p.1.data = p.1.data) →
    ∀ i, i < args.length →
    pyIsDigit ((args.map Prod.fst).getD i "").data = true ∧
      stripList ((args.map Prod.fst).getD i "").data = ((args.map Prod.fst).getD i "").data := by
  intro args
  induction args with
  | nil =>
    intro _ i hi
    simp at hi
  | cons q rest ih =>
    intro h i hi
    cases i with
    | zero => exact h q (List.mem_cons_self _ _)
    | succ i =>
      exact ih (fun p hp => h p (List.mem_cons_of_mem _ hp)) i (by simp at hi; omega)

/-- C4, corrected, on flat sibling lists: for every list of childless
article nodes with stripped digit numbers (built from `(number, text)`
pairs), after `remove_duplicate_articles` the surviving numbers are
pairwise distinct — at most one article per number remains — and each
survivor's text is at least as long as the text of every input occurrence
of its number.  (The unrestricted claim is refuted by the counterexample:
merging splices a discarded duplicate's children into the kept node, which
can resurrect a duplicate number elsewhere in the tree.) -/
theorem claim_C4 (args : List (String × String))
    (hdig : ∀ p ∈ args, pyIsDigit p.1.data = true ∧ stripList p.1.data = p.1.data) :
    ((remove_duplicate_articles (args.map mkFlatArt)).map
        (fun nd => numStr nd.number)).Nodup ∧
    (∀ nd ∈ remove_duplicate_articles (args.map mkFlatArt), ∀ p ∈ args,
      p.1 = numStr nd.number → p.2.length ≤ nd.text.length) := by
  have hlen : (args.map Prod.fst).length = (args.map Prod.snd).length := by
    simp
  have hnsl : (args.map Prod.fst).length = args.length := List.length_map args Prod.fst
  have hinl : (args.map mkFlatArt).length = args.length := List.length_map args mkFlatArt
  have hsz : args.length < sizeOf (args.map mkFlatArt) := by
    have h := length_lt_sizeOf (args.map mkFlatArt)
    rw [hinl] at h
    exact h
  have hdig' := args_digits args hdig
  have hr0 : toStoreMGo (sizeOf (args.map mkFlatArt)) (args.map mkFlatArt) 1 =
      (zipStore (args.map Prod.fst) (args.map Prod.snd) 1, idRange 1 args.length,
        1 + args.length) := toStoreMGo_flat args _ 1 hsz
  have hoccs : walkMGo (sizeOf (args.map mkFlatArt) + (1 + args.length))
      (zipStore (args.map Prod.fst) (args.map Prod.snd) 1)
      ((idRange 1 args.length).map some) none 0 = occList 1 args.length 0 := by
    have h := walkMGo_flat (args.map Prod.fst) (args.map Prod.snd) hlen
      (fun i hi => hdig' i (by omega))
      args.length 0 0 (sizeOf (args.map mkFlatArt) + (1 + args.length))
      (by omega) (by omega)
    simp only [Nat.add_zero, Nat.zero_add] at h
    exact h
  have hGW : ∀ num pr, pr ∈ occsOfNum (zipStore (args.map Prod.fst) (args.map Prod.snd) 1)
        (occList 1 args.length 0) num →
      ∃ i, i < args.length ∧ pr = ((i, ⟨none, i, 1 + i⟩) : Nat × MOcc) ∧
        (args.map Prod.fst).getD i "" = num := by
    intro num pr hpr
    unfold occsOfNum at hpr
    rw [List.mem_filter] at hpr
    obtain ⟨henum, hpred⟩ := hpr
    rw [List.mem_enum_iff_getElem?] at henum
    obtain ⟨hi, heq⟩ := occList_getElem?_inv args.length pr.1 pr.2 henum
    have h2 := of_decide_eq_true hpred
    rw [heq] at h2
    dsimp only at h2
    rw [mNumOf_zipStore (args.map Prod.fst) (args.map Prod.snd) pr.1 hlen (by omega)
      (hdig' pr.1 hi).2] at h2
    refine ⟨pr.1, hi, ?_, h2⟩
    rw [← heq]
    try exact Prod.mk.eta.symm
  have hGC : ∀ i, i < args.length →
      ((i, ⟨none, i, 1 + i⟩) : Nat × MOcc) ∈
        occsOfNum (zipStore (args.map Prod.fst) (args.map Prod.snd) 1)
          (occList 1 args.length 0) ((args.map Prod.fst).getD i "") := by
    intro i hi
    unfold occsOfNum
    rw [List.mem_filter]
    constructor
    · rw [List.mem_enum_iff_getElem?]
      have h := occList_getElem? args.length 1 0 i hi
      rw [Nat.zero_add] at h
      exact h
    · apply decide_eq_true
      dsimp only
      exact mNumOf_zipStore (args.map Prod.fst) (args.map Prod.snd) i hlen (by omega)
        (hdig' i hi).2
  have hNImem : ∀ i, i < args.length →
      (args.map Prod.fst).getD i "" ∈
        numInsertionOrder (zipStore (args.map Prod.fst) (args.map Prod.snd) 1)
          (occList 1 args.length 0) := by
    intro i hi
    unfold numInsertionOrder
    have h := numInsertionOrder_mem (zipStore (args.map Prod.fst) (args.map Prod.snd) 1)
      (occList 1 args.length 0) [] (⟨none, i, 1 + i⟩ : MOcc) (by
        rw [List.mem_iff_getElem?]
        refine ⟨i, ?_⟩
        have h := occList_getElem? args.length 1 0 i hi
        rw [Nat.zero_add] at h
        exact h)
    dsimp only at h
    rw [mNumOf_zipStore (args.map Prod.fst) (args.map Prod.snd) i hlen (by omega)
      (hdig' i hi).2] at h
    exact h
  have hNInodup : (numInsertionOrder (zipStore (args.map Prod.fst) (args.map Prod.snd) 1)
      (occList 1 args.length 0)).Nodup := by
    unfold numInsertionOrder
    exact numInsertionOrder_nodup _ _ [] List.nodup_nil
  have hNIsrc : ∀ x ∈ numInsertionOrder (zipStore (args.map Prod.fst) (args.map Prod.snd) 1)
      (occList 1 args.length 0), ∃ i, i < args.length ∧ (args.map Prod.fst).getD i "" = x := by
    intro x hx
    unfold numInsertionOrder at hx
    rcases numInsertionOrder_src _ _ _ x hx with h1 | ⟨o, ho, he⟩
    · cases h1
    · obtain ⟨i, hi, hoeq⟩ := mem_occList args.length o ho
      rw [hoeq] at he
      dsimp only at he
      rw [mNumOf_zipStore (args.map Prod.fst) (args.map Prod.snd) i hlen (by omega)
        (hdig' i hi).2] at he
      exact ⟨i, hi, he⟩
  have hpermNI := sortKeyed_perm (fun nu => digitsToNat nu.data)
    (numInsertionOrder (zipStore (args.map Prod.fst) (args.map Prod.snd) 1)
      (occList 1 args.length 0))
  have hCH := chooseGo_lookup
    ((sortKeyed (fun nu => digitsToNat nu.data)
        (numInsertionOrder (zipStore (args.map Prod.fst) (args.map Prod.snd) 1)
          (occList 1 args.length 0))).map
      (fun nu => (nu, occsOfNum (zipStore (args.map Prod.fst) (args.map Prod.snd) 1)
        (occList 1 args.length 0) nu)))
    (-1)
    (by
      intro pr hpr
      rw [List.mem_map] at hpr
      obtain ⟨nu, hnu, hpreq⟩ := hpr
      rw [← hpreq]
      dsimp only
      have hnu2 := hpermNI.mem_iff.mp hnu
      obtain ⟨i, hi, hie⟩ := hNIsrc nu hnu2
      intro hc
      have := hGC i hi
      rw [hie, hc] at this
      cases this)
    (by
      rw [show ∀ (l : List String) (f : String → List (Nat × MOcc)),
          ((l.map (fun nu => (nu, f nu))).map Prod.fst) = l from ?_]
      · exact (hpermNI.nodup_iff).mpr hNInodup
      · intro l f
        rw [List.map_map]
        exact List.map_id l)
  have hselents : ∀ e ∈ (numInsertionOrder (zipStore (args.map Prod.fst) (args.map Prod.snd) 1)
        (occList 1 args.length 0)).map
      (fun nu => (nu, occsOfNum (zipStore (args.map Prod.fst) (args.map Prod.snd) 1)
        (occList 1 args.length 0) nu)),
      ∃ sel, (chooseGo (-1)
        ((sortKeyed (fun nu => digitsToNat nu.data)
            (numInsertionOrder (zipStore (args.map Prod.fst) (args.map Prod.snd) 1)
              (occList 1 args.length 0))).map
          (fun nu => (nu, occsOfNum (zipStore (args.map Prod.fst) (args.map Prod.snd) 1)
            (occList 1 args.length 0) nu)))).lookup e.1 = some sel ∧ sel ∈ e.2 := by
    intro e he
    rw [List.mem_map] at he
    obtain ⟨nu, hnu, heq⟩ := he
    have hnu2 : nu ∈ sortKeyed (fun nu => digitsToNat nu.data)
        (numInsertionOrder (zipStore (args.map Prod.fst) (args.map Prod.snd) 1)
          (occList 1 args.length 0)) := hpermNI.mem_iff.mpr hnu
    obtain ⟨sel, hlook, hselmem⟩ := hCH nu
      (occsOfNum (zipStore (args.map Prod.fst) (args.map Prod.snd) 1)
        (occList 1 args.length 0) nu)
      (List.mem_map.mpr ⟨nu, hnu2, rfl⟩)
    rw [← heq]
    exact ⟨sel, hlook, hselmem⟩
  have hwfents : ∀ e ∈ (numInsertionOrder (zipStore (args.map Prod.fst) (args.map Prod.snd) 1)
        (occList 1 args.length 0)).map
      (fun nu => (nu, occsOfNum (zipStore (args.map Prod.fst) (args.map Prod.snd) 1)
        (occList 1 args.length 0) nu)),
      ∀ pr ∈ e.2, ∃ i, i < (args.map Prod.fst).length ∧
        pr = ((i, ⟨none, i, 1 + i⟩) : Nat × MOcc) := by
    intro e he pr hpr
    rw [List.mem_map] at he
    obtain ⟨nu, hnu, heq⟩ := he
    rw [← heq] at hpr
    dsimp only at hpr
    obtain ⟨i, hi, hpreq, _⟩ := hGW nu pr hpr
    exact ⟨i, by omega, hpreq⟩
  obtain ⟨ts2, rootF, hmeq, hlen2, hmono, hbound, hf2, hblank, hun⟩ :=
    mergeAll_flat (args.map Prod.fst)
      (chooseGo (-1)
        ((sortKeyed (fun nu => digitsToNat nu.data)
            (numInsertionOrder (zipStore (args.map Prod.fst) (args.map Prod.snd) 1)
              (occList 1 args.length 0))).map
          (fun nu => (nu, occsOfNum (zipStore (args.map Prod.fst) (args.map Prod.snd) 1)
            (occList 1 args.length 0) nu))))
      ((numInsertionOrder (zipStore (args.map Prod.fst) (args.map Prod.snd) 1)
          (occList 1 args.length 0)).map
        (fun nu => (nu, occsOfNum (zipStore (args.map Prod.fst) (args.map Prod.snd) 1)
          (occList 1 args.length 0) nu)))
      (args.map Prod.snd) ((idRange 1 args.length).map some) hlen hwfents hselents
  have hrootlen : rootF.length = args.length := by
    have h := blankRel_length hf2
    rw [List.length_map, idRange_length] at h
    omega
  have hrootF_ids : ∀ nid, some nid ∈ rootF → ∃ k, k < (args.map Prod.fst).length ∧
      nid = 1 + k := by
    intro nid hnid
    obtain ⟨pos, hpos⟩ := List.mem_iff_getElem?.mp hnid
    obtain ⟨x, hx, hor⟩ := blankRel_get2 hf2 pos (some nid) hpos
    rcases hor with h | h
    · have hposlt : pos < args.length := by
        by_contra hc
        rw [List.getElem?_eq_none (by rw [List.length_map, idRange_length]; omega)] at hx
        cases hx
      rw [List.getElem?_map, idRange_getElem? args.length 1 pos hposlt] at hx
      injection hx with hx
      rw [← hx] at h
      injection h with h
      exact ⟨pos, by omega, h⟩
    · cases h
  have hK : ∀ nid, some nid ∈ rootF → ∃ pos, pos < args.length ∧ nid = 1 + pos ∧
      ∃ sel, (chooseGo (-1)
        ((sortKeyed (fun nu => digitsToNat nu.data)
            (numInsertionOrder (zipStore (args.map Prod.fst) (args.map Prod.snd) 1)
              (occList 1 args.length 0))).map
          (fun nu => (nu, occsOfNum (zipStore (args.map Prod.fst) (args.map Prod.snd) 1)
            (occList 1 args.length 0) nu)))).lookup ((args.map Prod.fst).getD pos "") =
          some sel ∧ sel.1 = pos := by
    intro nid hnid
    obtain ⟨ipos, hx⟩ := List.mem_iff_getElem?.mp hnid
    obtain ⟨k, hk, hnideq⟩ := hrootF_ids nid hnid
    obtain ⟨x, hx0, hor⟩ := blankRel_get2 hf2 ipos (some nid) hx
    have hposlt : ipos < args.length := by
      by_contra hc
      rw [List.getElem?_eq_none (by rw [List.length_map, idRange_length]; omega)] at hx0
      cases hx0
    rw [List.getElem?_map, idRange_getElem? args.length 1 ipos hposlt] at hx0
    injection hx0 with hx0
    rcases hor with h | h
    · rw [← hx0] at h
      injection h with h
      obtain ⟨sel, hlook, hselmem⟩ := hselents
        ((args.map Prod.fst).getD ipos "",
          occsOfNum (zipStore (args.map Prod.fst) (args.map Prod.snd) 1)
            (occList 1 args.length 0) ((args.map Prod.fst).getD ipos ""))
        (List.mem_map.mpr ⟨(args.map Prod.fst).getD ipos "", hNImem ipos hposlt, rfl⟩)
      refine ⟨ipos, hposlt, by omega, sel, hlook, ?_⟩
      by_contra hc
      have hb := hblank
        ((args.map Prod.fst).getD ipos "",
          occsOfNum (zipStore (args.map Prod.fst) (args.map Prod.snd) 1)
            (occList 1 args.length 0) ((args.map Prod.fst).getD ipos ""))
        (List.mem_map.mpr ⟨(args.map Prod.fst).getD ipos "", hNImem ipos hposlt, rfl⟩)
        sel hlook ((ipos, ⟨none, ipos, 1 + ipos⟩) : Nat × MOcc) (hGC ipos hposlt)
        (by
          dsimp only
          intro hcc
          exact hc hcc.symm)
        (by
          dsimp only
          rw [List.length_map, idRange_length]
          exact hposlt)
      dsimp only at hb
      rw [hx] at hb
      injection hb with hb
      cases hb
    · cases h
  have hmemF : ∀ nid, nid ∈ rootF.filterMap id → some nid ∈ rootF := by
    intro nid hnid
    rw [List.mem_filterMap] at hnid
    obtain ⟨a, ha, hae⟩ := hnid
    rw [show id a = a from rfl] at hae
    rw [hae] at ha
    exact ha
  have hclean := cleanupGo_flat (args.map Prod.fst) ts2 hlen2 rootF
    (sizeOf (args.map mkFlatArt) + (1 + args.length))
    (by rw [hrootlen]; omega) hrootF_ids
  have hsurv_sub : (rootF.filterMap id).Sublist (idRange 1 args.length) := by
    have h := blankRel_filterMap hf2
    rw [filterMap_id_map_some] at h
    exact h
  have hsurvlen : (rootF.filterMap id).length ≤ args.length := by
    have h := hsurv_sub.length_le
    rw [idRange_length] at h
    exact h
  have hof := ofStoreMGo_flat (args.map Prod.fst) ts2 hlen2 (rootF.filterMap id)
    (sizeOf (args.map mkFlatArt) + (1 + args.length))
    (by omega)
    (fun nid hnid => hrootF_ids nid (hmemF nid hnid))
  have hout : remove_duplicate_articles (args.map mkFlatArt) =
      (rootF.filterMap id).map (fun nid =>
        (⟨"مادة", NumV.str ((args.map Prod.fst).getD (nid - 1) ""), "",
          ts2.getD (nid - 1) "", [], false⟩ : SNode)) := by
    unfold remove_duplicate_articles
    rw [hr0]
    dsimp only
    rw [hoccs]
    rw [hmeq]
    dsimp only
    rw [hclean]
    dsimp only
    rw [hof]
  constructor
  · rw [hout, List.map_map]
    rw [show ((fun nd => numStr nd.number) ∘ (fun nid =>
        (⟨"مادة", NumV.str ((args.map Prod.fst).getD (nid - 1) ""), "",
          ts2.getD (nid - 1) "", [], false⟩ : SNode))) =
        (fun nid => (args.map Prod.fst).getD (nid - 1) "") from rfl]
    apply List.Nodup.map_on
    · intro x hx y hy hxy
      obtain ⟨posx, hposx, hxeq, selx, hlookx, hselx⟩ := hK x (hmemF x hx)
      obtain ⟨posy, hposy, hyeq, sely, hlooky, hsely⟩ := hK y (hmemF y hy)
      have hx1 : x - 1 = posx := by omega
      have hy1 : y - 1 = posy := by omega
      rw [hx1, hy1] at hxy
      rw [hxy] at hlookx
      rw [hlooky] at hlookx
      injection hlookx with hsel_eq
      rw [hsel_eq] at hsely
      omega
    · exact hsurv_sub.nodup (idRange_nodup args.length 1)
  · intro nd hnd p hp
    rw [hout] at hnd
    rw [List.mem_map] at hnd
    obtain ⟨nid, hnidmem, hnd_eq⟩ := hnd
    obtain ⟨pos, hposlt, hnideq, sel, hlook, hselpos⟩ := hK nid (hmemF nid hnidmem)
    rw [← hnd_eq]
    dsimp only
    intro hpnum
    have hpnum2 : p.1 = (args.map Prod.fst).getD (nid - 1) "" := hpnum
    obtain ⟨i, hi, hfst, hsnd⟩ := args_index args p hp
    have hposeq : nid - 1 = pos := by omega
    rw [hposeq] at hpnum2
    have hnum_i : (args.map Prod.fst).getD i "" = (args.map Prod.fst).getD pos "" := by
      rw [hfst, hpnum2]
    have hgrp := hGC i hi
    rw [hnum_i] at hgrp
    have hb := hbound
      ((args.map Prod.fst).getD pos "",
        occsOfNum (zipStore (args.map Prod.fst) (args.map Prod.snd) 1)
          (occList 1 args.length 0) ((args.map Prod.fst).getD pos ""))
      (List.mem_map.mpr ⟨(args.map Prod.fst).getD pos "", hNImem pos hposlt, rfl⟩)
      sel hlook ((i, ⟨none, i, 1 + i⟩) : Nat × MOcc) hgrp
    dsimp only at hb
    rw [show (1 : Nat) + i - 1 = i from by omega] at hb
    rw [hsnd] at hb
    rw [hselpos] at hb
    rw [hposeq]
    exact hb

/-- Witness for the amended C4 at a concrete flat run: two articles
numbered `5` (texts of lengths 2 and 4) and one numbered `7`. -/
theorem claim_C4_witness :
    (∀ p ∈ c4w_args, pyIsDigit p.1.data = true ∧ stripList p.1.data = p.1.data) ∧
    ((remove_duplicate_articles (c4w_args.map mkFlatArt)).map
        (fun nd => numStr nd.number)).Nodup ∧
    (∀ nd ∈ remove_duplicate_articles (c4w_args.map mkFlatArt), ∀ p ∈ c4w_args,
      p.1 = numStr nd.number → p.2.length ≤ nd.text.length) :=
  ⟨by decide, (claim_C4 c4w_args (by decide)).1, (claim_C4 c4w_args (by decide)).2⟩
